import Mathlib

/-!
# modoc: document tree assembly and publishing pipeline (`cmd/build.go`)

A shallow embedding of `initNode`, `makeNode`, `makeBody` and `parseToc`.

Go pointers `*model.Node` are addresses (`Nat`) into a heap `Nat → Node`; the
nil pointer is `none`.  The process-wide variables of `build.go` (`pinyin`,
`nodeList`, `index`, `search`) are the fields of `Build`, threaded explicitly.
Functions from outside the repository are parameters: go-slugify and the raw
link are arguments of `initNode`; blackfriday, the HTML parser and serialiser,
pongo2 and the file system are the fields of `Env`.  The goquery operations
that `parseToc` uses are modelled on parsed documents (`HNode`).  The methods of
package `model` (`Init`, `SetActive`, `AddDoc`) are modelled from the
specification.  The counters of the dedup table are Go `int`s; they never
exceed the number of nodes, so they are natural numbers here.
-/

namespace Modoc

/-! ## Data model -/

/-- The fields of `model.Node` that `build.go` reads or writes. Pointer fields hold addresses. -/
structure Node where
  Title : String := ""
  Path : String := ""
  Link : String := ""
  BaseDir : String := ""
  IsIndex : Bool := false
  IsFile : Bool := false
  Active : Bool := false
  Parent : Option Nat := none
  Prev : Option Nat := none
  Next : Option Nat := none
  Child : List Nat := []
deriving DecidableEq, Inhabited

/-- The struct `model.SearchDoc` as built in `makeBody`. -/
structure SearchDoc where
  Location : String
  Text : String
  Title : String
deriving DecidableEq

/-- The struct `Toc` of `build.go` (lines 26-32); `Child []*Toc` is owned, so it is a tree. -/
inductive Toc where
  | mk (Title : String) (Link : String) (Child : List Toc)

/-- Title of a table-of-contents entry. -/
def Toc.Title : Toc → String
  | .mk t _ _ => t

/-- Link of a table-of-contents entry. -/
def Toc.Link : Toc → String
  | .mk _ l _ => l

/-- Children of a table-of-contents entry. -/
def Toc.Child : Toc → List Toc
  | .mk _ _ c => c

/-- The settings `cfg` read by `build.go`. -/
structure Config where
  LinkPinyin : Bool
  DocsDir : String
  SiteDir : String

/-- The process-wide state of `build.go`: the node heap and the package variables. -/
structure Build where
  heap : Nat → Node
  pinyin : String → Option Nat := fun _ => none
  nodeList : List Nat := []
  index : Option Nat := none
  search : List SearchDoc := []
  site : List (String × String) := []

/-- Write through a pointer: replace the record at address `p` by `f` of it. -/
def Build.modify (st : Build) (p : Nat) (f : Node → Node) : Build :=
  { st with heap := fun a => if a = p then f (st.heap p) else st.heap a }

/-! ## Tree builder: `initNode` (lines 135-166) -/

/-- Modelled from the spec: `Node.Init` of package `model`, which is not among the sources.
Spec 4.2: "determine isIndex (a designated root flag in the spec), determine isFile (true iff a
source path is present), compute link"; the raw hierarchical path is the parameter `rawLink`. -/
def Node.Init (rawLink : Node → String) (n : Node) : Node :=
  { n with IsFile := n.Path != "", Link := rawLink n }

/-- Go `strings.Split(s, "/")` on the characters of `s`. -/
def splitSlash : List Char → List (List Char)
  | [] => [[]]
  | c :: cs =>
    if c = '/' then [] :: splitSlash cs
    else match splitSlash cs with
      | [] => [[c]]
      | seg :: segs => (c :: seg) :: segs

/-- Lines 143-148: split the link at "/", slugify every segment, join with "/". -/
def slugLink (Slugify : String → String) (link : String) : String :=
  String.intercalate "/" ((splitSlash link.data).map fun v => Slugify (String.mk v))

/-- Lines 149-155: the dedup table lookup; returns the new table and the link to store.
`fmt.Sprintf("%s-%v", newlink, pinyin[newlink])` prints the counter in decimal. -/
def dedup (pinyin : String → Option Nat) (newlink : String) : (String → Option Nat) × String :=
  match pinyin newlink with
  | some k =>
    let pinyin := fun s => if s = newlink then some (k + 1) else pinyin s
    (pinyin, newlink ++ "-" ++ toString (k + 1))
  | none => (fun s => if s = newlink then some 1 else pinyin s, newlink)

/-- Lines 136-161: the body of `initNode` on the node at address `node`, before the loop
over its children. -/
def visit (cfg : Config) (Slugify : String → String) (rawLink : Node → String)
    (st : Build) (node : Nat) : Build :=
  let st := st.modify node (Node.Init rawLink)
  let st := if (st.heap node).IsIndex then { st with index := some node } else st
  let st :=
    if cfg.LinkPinyin && (st.heap node).Link != "" then
      let r := dedup st.pinyin (slugLink Slugify (st.heap node).Link)
      { st.modify node (fun n => { n with Link := r.2 }) with pinyin := r.1 }
    else st
  if (st.heap node).IsFile then { st with nodeList := st.nodeList ++ [node] } else st

/-- Line 163: `n.Parent = node`. -/
def setParent (st : Build) (n node : Nat) : Build :=
  st.modify n (fun r => { r with Parent := some node })

/-- Lines 135-166. The recursion follows `Child` pointers through the heap, so it is bounded
by `fuel` (the Go call depth); `none` means the bound was reached. -/
def initNode (cfg : Config) (Slugify : String → String) (rawLink : Node → String) :
    Nat → Build → Nat → Option Build
  | 0, _, _ => none
  | fuel + 1, st, node =>
    let st := visit cfg Slugify rawLink st node
    (st.heap node).Child.foldlM
      (fun st n => initNode cfg Slugify rawLink fuel (setParent st n node) n) st

/-! ## Navigation trees held in the heap -/

/-- The shape of a navigation tree: the address of a node and the shapes of its children. -/
inductive Tree where
  | node (addr : Nat) (kids : List Tree)

/-- Address of the root of a shape. -/
def Tree.addr : Tree → Nat
  | .node a _ => a

/-- Children of the root of a shape. -/
def Tree.kids : Tree → List Tree
  | .node _ ks => ks

mutual
/-- Depth-first pre-order sequence of the addresses: a node before its children, children in
declared order. -/
def Tree.preorder : Tree → List Nat
  | .node a ks => a :: Tree.preorderList ks
/-- Pre-order sequence of a forest. -/
def Tree.preorderList : List Tree → List Nat
  | [] => []
  | t :: ts => t.preorder ++ Tree.preorderList ts
end

mutual
/-- Number of nested `initNode` calls below the root. -/
def Tree.depth : Tree → Nat
  | .node _ ks => Tree.depthList ks
/-- Height of a forest. -/
def Tree.depthList : List Tree → Nat
  | [] => 0
  | t :: ts => max (t.depth + 1) (Tree.depthList ts)
end

mutual
/-- The heap holds the tree: every node's `Child` slice lists the addresses of its children. -/
def Tree.shaped (heap : Nat → Node) : Tree → Bool
  | .node a ks => (heap a).Child == ks.map Tree.addr && Tree.shapedList heap ks
/-- Every tree of the forest is held by the heap. -/
def Tree.shapedList (heap : Nat → Node) : List Tree → Bool
  | [] => true
  | t :: ts => t.shaped heap && Tree.shapedList heap ts
end

mutual
/-- The calls of `initNode` in execution order: the address visited, paired with the parent
that line 163 stored into it just before (`none` for the root call of `runBuild`). -/
def Tree.visits (parent : Option Nat) : Tree → List (Nat × Option Nat)
  | .node a ks => (a, parent) :: Tree.visitsList a ks
/-- The calls made by the loop of lines 162-165 over the children of `parent`. -/
def Tree.visitsList (parent : Nat) : List Tree → List (Nat × Option Nat)
  | [] => []
  | t :: ts => t.visits (some parent) ++ Tree.visitsList parent ts
end

/-- One call of `initNode` without its recursion: the parent assignment of line 163 (for a
child) followed by lines 136-161. -/
def step (cfg : Config) (Slugify : String → String) (rawLink : Node → String)
    (st : Build) (v : Nat × Option Nat) : Build :=
  visit cfg Slugify rawLink (match v.2 with | some p => setParent st v.1 p | none => st) v.1

/-- A sequence of calls, left to right. -/
def run (cfg : Config) (Slugify : String → String) (rawLink : Node → String)
    (st : Build) (vs : List (Nat × Option Nat)) : Build :=
  vs.foldl (step cfg Slugify rawLink) st

/-! ## HTML documents and the goquery operations used by `parseToc` -/

/-- A parsed HTML node (`golang.org/x/net/html`): a text node or an element with its
attributes and children. The document node is an element with the empty tag. -/
inductive HNode where
  | text (data : String)
  | elem (tag : String) (attr : List (String × String)) (kids : List HNode)

/-- A node of a goquery selection: the node together with the tags of its ancestors, nearest
first (the parent pointers that the child combinator `>` follows). -/
abbrev Located := List String × HNode

/-- A selector `t1>t2>...>tn` is stored innermost tag first; it matches an element with tag `tn`
whose parent has tag `t(n-1)`, and so on. -/
def selMatches (sel : List String) (anc : List String) (tag : String) : Bool :=
  match sel with
  | [] => false
  | t :: up => t == tag && up.isPrefixOf anc

mutual
/-- The matcher of goquery on a subtree: every node of the subtree, the root included, that
matches the selector, in document order. -/
def HNode.matchAll (sel : List String) (anc : List String) : HNode → List Located
  | .text _ => []
  | .elem tag attr kids =>
    (if selMatches sel anc tag then [(anc, .elem tag attr kids)] else [])
      ++ HNode.matchAllList sel (tag :: anc) kids
/-- The matcher on a sequence of siblings. -/
def HNode.matchAllList (sel : List String) (anc : List String) : List HNode → List Located
  | [] => []
  | n :: ns => n.matchAll sel anc ++ HNode.matchAllList sel anc ns
end

/-- Method `Selection.Find` on a selection of one node: the matching proper descendants. -/
def Find (sel : List String) (s : Located) : List Located :=
  match s.2 with
  | .text _ => []
  | .elem tag _ kids => HNode.matchAllList sel (tag :: s.1) kids

mutual
/-- Text content of a node: the text nodes below it, concatenated in document order. -/
def HNode.textOf : HNode → String
  | .text d => d
  | .elem _ _ kids => HNode.textOfList kids
/-- Text content of a sequence of siblings. -/
def HNode.textOfList : List HNode → String
  | [] => ""
  | n :: ns => n.textOf ++ HNode.textOfList ns
end

/-- Method `Selection.Text`: the combined text of the selected nodes. -/
def Text (s : List Located) : String :=
  s.foldl (fun acc n => acc ++ n.2.textOf) ""

/-- Method `Selection.Attr`: the attribute of the first selected node, and whether it exists. -/
def Attr (s : List Located) (name : String) : String × Bool :=
  match s with
  | (_, .elem _ attr _) :: _ =>
    match attr.lookup name with
    | some v => (v, true)
    | none => ("", false)
  | _ => ("", false)

mutual
/-- The document after `dom.Find(tag).Remove()`: every element with that tag is detached. -/
def HNode.remove (tag : String) : HNode → HNode
  | .text d => .text d
  | .elem t attr kids => .elem t attr (HNode.removeList tag kids)
/-- Removal in a sequence of siblings. -/
def HNode.removeList (tag : String) : List HNode → List HNode
  | [] => []
  | .text d :: ns => .text d :: HNode.removeList tag ns
  | .elem t attr kids :: ns =>
    if t = tag then HNode.removeList tag ns
    else .elem t attr (HNode.removeList tag kids) :: HNode.removeList tag ns
end

/-- Go `strings.Replace(s, old, new, -1)` for a non-empty `old`, on the characters of `s`:
the occurrences of `old` are found left to right and do not overlap. `skip` counts the
characters of the occurrence just replaced that are still to be passed over. -/
def replaceAll (old new : List Char) : Nat → List Char → List Char
  | _, [] => []
  | skip + 1, _ :: cs => replaceAll old new skip cs
  | 0, c :: cs =>
    if old.isPrefixOf (c :: cs) then new ++ replaceAll old new (old.length - 1) cs
    else c :: replaceAll old new 0 cs

/-- Line 270: `strings.Replace(text, "\n\n", "", -1)`. -/
def indexedText (text : String) : String :=
  String.mk (replaceAll ['\n', '\n'] [] 0 text.data)

/-! ## Content transformer: `parseToc` (lines 233-272) -/

/-- How a run of the build can stop early. -/
inductive Fault where
  /-- A slice index out of range (Go run-time panic). -/
  | indexOutOfRange
  /-- A call of `log.Fatal`. -/
  | fatal
  /-- The bound on the parent walk of `SetActive` was reached. -/
  | callDepth
deriving DecidableEq

/-- The collaborators outside the repository, and the settings. -/
structure Env where
  /-- The settings `cfg`. -/
  cfg : Config
  /-- Go `filepath.Join`. -/
  Join : List String → String
  /-- Function `parseMd` (lines 224-231): read the file and run blackfriday with the
  table of contents switched on; a read error gives the empty input. -/
  parseMd : String → String
  /-- Function `goquery.NewDocumentFromReader`; `none` is its error. -/
  parseHtml : String → Option HNode
  /-- Method `dom.Html()`: the serialiser. -/
  Html : HNode → String
  /-- Method `bodyTpl.Execute` of pongo2 on the context of lines 203-213, which holds
  pointers into the current state; `none` is its error. -/
  Execute : Build → Toc → String → Nat → Option String
  /-- Function `helper.WriteFile`; `false` is its error. -/
  WriteFile : String → String → Bool

/-- The selector `nav>ul>li`. -/
def selLi : List String := ["li", "ul", "nav"]

/-- The selector `nav>ul>li>a`. -/
def selA : List String := ["a", "li", "ul", "nav"]

/-- The selector `nav>ul>li>ul>li>a`. -/
def selSubA : List String := ["a", "li", "ul", "li", "ul", "nav"]

/-- Lines 251-262, one round of the inner `Each`: the state is `h1.Child` and `tocs.Child`. -/
def tocSub (has : Bool) (acc : List Toc × List Toc) (a : Located) : List Toc × List Toc :=
  let link := (Attr [a] "href").1
  let h2 := Toc.mk (Text [a]) link []
  if has then (acc.1 ++ [h2], acc.2) else (acc.1, acc.2 ++ [h2])

/-- Lines 241-263, one round of the outer `Each` on the children of the root entry `tocs`.
`tocs.Child` holds the pointer `h1`, so what the inner loop appends to `h1.Child` afterwards
is seen through it: `h1` is put in place once its children are known. -/
def tocItem (tocs : List Toc) (li : Located) : List Toc :=
  let a := Find selA li
  let (link, has) := Attr a "href"
  let title := Text a
  let r := (Find selSubA li).foldl (tocSub has) ([], tocs)
  if has then r.2 ++ [Toc.mk title link r.1] else r.2

/-- Lines 233-272. Returns `html`, `text` and `tocs`. -/
def parseToc (env : Env) (input : String) : Except Fault (String × String × Toc) :=
  match env.parseHtml input with
  | none => .error .fatal
  | some dom =>
    let tocs := Toc.mk "" "" ((Find selLi ([], dom)).foldl tocItem [])
    let dom := dom.remove "nav"
    let html := env.Html dom
    let text := indexedText dom.textOf
    .ok (html, text, tocs)

/-! ## Pagination linker and search indexer: `makeNode`, `makeBody` (lines 168-222) -/

/-- Modelled from the spec: `Node.SetActive` of package `model`, which is not among the
sources. Spec 4.4: "toggle the node's (and implicitly its ancestors', via parent-walk)
`active` flag". The walk follows `Parent` pointers through the heap, so it is bounded by
`fuel`; `none` means the bound was reached. -/
def SetActive : Nat → Build → Nat → Bool → Option Build
  | 0, _, _, _ => none
  | fuel + 1, st, node, b =>
    let st := st.modify node (fun n => { n with Active := b })
    match (st.heap node).Parent with
    | none => some st
    | some p => SetActive fuel st p b

/-- Modelled from the spec: `Search.AddDoc` of package `model`, which is not among the
sources. Spec 4.5: "`addDoc(doc: SearchDoc)` appends to the corpus unconditionally — no
dedup, no validation". -/
def AddDoc (st : Build) (doc : SearchDoc) : Build :=
  { st with search := st.search ++ [doc] }

/-- Lines 188-222. -/
def makeBody (env : Env) (st : Build) (node : Nat) : Except Fault Build :=
  let srcPath := env.Join [env.cfg.DocsDir, (st.heap node).Path]
  let dstPath :=
    if (st.heap node).IsIndex then env.Join [env.cfg.SiteDir, "index.html"]
    else env.Join [env.cfg.SiteDir, (st.heap node).Link, "index.html"]
  let output := env.parseMd srcPath
  match parseToc env output with
  | .error e => .error e
  | .ok (html, text, tocs) =>
    let doc : SearchDoc :=
      { Location := (st.heap node).Link, Text := text, Title := (st.heap node).Title }
    let st := AddDoc st doc
    match env.Execute st tocs html node with
    | none => .error .fatal
    | some out =>
      if env.WriteFile dstPath out then .ok { st with site := st.site ++ [(dstPath, out)] }
      else .error .fatal

/-- The slice access `nodeList[i]` with its bounds check. -/
def nodeAt (nodeList : List Nat) (i : Int) : Except Fault Nat :=
  if i < 0 then .error .indexOutOfRange
  else match nodeList[i.toNat]? with
    | some p => .ok p
    | none => .error .indexOutOfRange

/-- Lines 171-182: the part of one round of the loop of `makeNode` that comes before the
call of `makeBody`. `max` is `len(nodeList) - 1` (line 169). -/
def enter (fuel : Nat) (max : Int) (st : Build) (i : Nat) (node : Nat) : Except Fault Build :=
  match SetActive fuel st node true with
  | none => .error .callDepth
  | some st =>
    let prevId : Int := i - 1
    let nextId : Int := i + 1
    let prevId := if prevId < 0 then max else prevId
    let nextId := if nextId > max then 0 else nextId
    match nodeAt st.nodeList prevId with
    | .error e => .error e
    | .ok prev =>
      let st := st.modify node (fun n => { n with Prev := some prev })
      match nodeAt st.nodeList nextId with
      | .error e => .error e
      | .ok next => .ok (st.modify node (fun n => { n with Next := some next }))

/-- Line 184: the part of one round that comes after the call of `makeBody`. -/
def leave (fuel : Nat) (st : Build) (node : Nat) : Except Fault Build :=
  match SetActive fuel st node false with
  | none => .error .callDepth
  | some st => .ok st

/-- Lines 170-185: the rounds of the loop for the elements `nodes`, the first of which has
index `i`. -/
def makeNodeLoop (env : Env) (fuel : Nat) (max : Int) :
    Nat → List Nat → Build → Except Fault Build
  | _, [], st => .ok st
  | i, node :: rest, st =>
    match enter fuel max st i node with
    | .error e => .error e
    | .ok st =>
      match makeBody env st node with
      | .error e => .error e
      | .ok st =>
        match leave fuel st node with
        | .error e => .error e
        | .ok st => makeNodeLoop env fuel max (i + 1) rest st

/-- Lines 168-186. -/
def makeNode (env : Env) (fuel : Nat) (st : Build) : Except Fault Build :=
  let max : Int := (st.nodeList.length : Int) - 1
  makeNodeLoop env fuel max 0 st.nodeList st

/-- The state in which `makeBody` is called in round `i` of `makeNode`: rounds `0` to `i - 1`
have run in full, and round `i` has reached line 183. -/
def atMakeBody (env : Env) (fuel : Nat) (st : Build) (i : Nat) : Except Fault Build :=
  let max : Int := (st.nodeList.length : Int) - 1
  match makeNodeLoop env fuel max 0 (st.nodeList.take i) st with
  | .error e => .error e
  | .ok s =>
    match st.nodeList[i]? with
    | none => .error .indexOutOfRange
    | some node => enter fuel max s i node

/-- Every parent walk from `a` ends within `fuel` nodes. -/
def rooted (heap : Nat → Node) : Nat → Nat → Bool
  | 0, _ => false
  | fuel + 1, a =>
    match (heap a).Parent with
    | none => true
    | some p => rooted heap fuel p

/-- The collaborators report no error, whatever they are given. -/
def Env.reliable (env : Env) : Prop :=
  (∀ s, (env.parseHtml s).isSome) ∧ (∀ st tocs html node, (env.Execute st tocs html node).isSome)
    ∧ ∀ path out, env.WriteFile path out = true

/-- The record at `v.1` at the moment `initNode` is called on it in a run that started in
`st`: the record of `st`, in which line 163 has stored the parent. -/
def entry (st : Build) (v : Nat × Option Nat) : Node :=
  match v.2 with
  | none => st.heap v.1
  | some p => { st.heap v.1 with Parent := some p }

/-- Whether the call `v` passes the guard of line 142. -/
def deduped (cfg : Config) (rawLink : Node → String) (st : Build) (v : Nat × Option Nat) : Bool :=
  cfg.LinkPinyin && (Node.Init rawLink (entry st v)).Link != ""

/-- The value of `newlink` at line 148 in the call `v`: the slugified candidate link. -/
def candidate (Slugify : String → String) (rawLink : Node → String) (st : Build)
    (v : Nat × Option Nat) : String :=
  slugLink Slugify (Node.Init rawLink (entry st v)).Link

/-- How many of the calls `vs` reach the dedup table with the candidate `c`. -/
def occurrences (cfg : Config) (Slugify : String → String) (rawLink : Node → String)
    (st : Build) (c : String) (vs : List (Nat × Option Nat)) : Nat :=
  (vs.filter fun w => deduped cfg rawLink st w && candidate Slugify rawLink st w == c).length

/-- The link that lines 142-157 leave in a node whose record after `Init` is `Init n`, when
the dedup table is `pinyin`. -/
def visitLink (cfg : Config) (Slugify : String → String) (rawLink : Node → String)
    (pinyin : String → Option Nat) (n : Node) : String :=
  if cfg.LinkPinyin && rawLink n != "" then (dedup pinyin (slugLink Slugify (rawLink n))).2
  else rawLink n

/-- The dedup table that lines 142-157 leave. -/
def visitTable (cfg : Config) (Slugify : String → String) (rawLink : Node → String)
    (pinyin : String → Option Nat) (n : Node) : String → Option Nat :=
  if cfg.LinkPinyin && rawLink n != "" then (dedup pinyin (slugLink Slugify (rawLink n))).1
  else pinyin

/-! ## Concrete sites -/

/-- Settings with link transliteration switched on. -/
def cfgPinyin : Config := { LinkPinyin := true, DocsDir := "docs", SiteDir := "site" }

/-- The raw link used in the concrete sites: the source path as it stands. -/
def pathLink (n : Node) : String := n.Path

/-- The slugifier used in the concrete sites. On the segments that occur in them (lower-case
ASCII letters, digits and inner hyphens) go-slugify returns its argument. -/
def plainSlug (s : String) : String := s

/-- A folder at address 0 with two file entries whose raw link is `a`. -/
def twinSite : Build :=
  { heap := fun a =>
      if a = 0 then { Title := "docs", Child := [1, 2] }
      else if a = 1 then { Title := "first", Path := "a" }
      else if a = 2 then { Title := "second", Path := "a" }
      else {} }

/-- The shape of `twinSite`. -/
def twinTree : Tree := .node 0 [.node 1 [], .node 2 []]

/-- A folder at address 0 with three file entries whose raw links are `a`, `a` and `a-2`. -/
def clashSite : Build :=
  { heap := fun a =>
      if a = 0 then { Title := "docs", Child := [1, 2, 3] }
      else if a = 1 then { Title := "first", Path := "a" }
      else if a = 2 then { Title := "second", Path := "a" }
      else if a = 3 then { Title := "third", Path := "a-2" }
      else {} }

/-- A folder at address 0 that holds a folder (address 1) with the home page (address 3),
followed by the page at address 2. -/
def guideSite : Build :=
  { heap := fun a =>
      if a = 0 then { Title := "docs", Child := [1, 2] }
      else if a = 1 then { Title := "guide", Child := [3] }
      else if a = 2 then { Title := "about", Path := "about.md" }
      else if a = 3 then { Title := "home", Path := "index.md", IsIndex := true }
      else {} }

/-- The shape of `guideSite`. -/
def guideTree : Tree := .node 0 [.node 1 [.node 3 []], .node 2 []]

/-- The record without its transient `Active` flag. -/
def Node.still (n : Node) : Node := { n with Active := false }

/-- The record without what `makeNode` writes: the `Active` flag and the pagination pointers. -/
def Node.bare (n : Node) : Node := { n with Active := false, Prev := none, Next := none }

/-- The node reached from `a` by following `Next` pointers `k` times; `none` on a nil pointer. -/
def follow (heap : Nat → Node) : Nat → Nat → Option Nat
  | 0, a => some a
  | k + 1, a =>
    match (heap a).Next with
    | none => none
    | some b => follow heap k b

/-- Collaborators that never fail: every source renders to an empty document and every page
to the empty string. -/
def quietEnv : Env :=
  { cfg := cfgPinyin
    Join := String.intercalate "/"
    parseMd := fun _ => ""
    parseHtml := fun _ => some (.elem "" [] [])
    Html := fun _ => ""
    Execute := fun _ _ _ _ => some ""
    WriteFile := fun _ _ => true }

/-- A state as `initNode` leaves it: a folder (address 0) with the two pages `a` (address 1)
and `b` (address 2), both in the flat list. -/
def pagedSite : Build :=
  { heap := fun a =>
      if a = 0 then { Title := "docs", Child := [1, 2] }
      else if a = 1 then
        { Title := "first", Path := "a.md", Link := "a", IsFile := true, Parent := some 0 }
      else if a = 2 then
        { Title := "second", Path := "b.md", Link := "b", IsFile := true, Parent := some 0 }
      else {}
    nodeList := [1, 2] }

/-! ## Navigation blocks -/

/-- A top-level item of a navigation block: its own anchor `(title, href)`, if it has one,
and its nested anchored items `(title, href)` in order. -/
structure NavItem where
  anchor : Option (String × String)
  nested : List (String × String)

mutual
/-- Whether an element with the given tag occurs in the subtree. -/
def HNode.hasTag (tag : String) : HNode → Bool
  | .text _ => false
  | .elem t _ kids => t == tag || HNode.hasTagList tag kids
/-- Whether an element with the given tag occurs below one of the siblings. -/
def HNode.hasTagList (tag : String) : List HNode → Bool
  | [] => false
  | n :: ns => n.hasTag tag || HNode.hasTagList tag ns
end

/-- The element children of a node, in order: the text nodes between them (the line breaks
of the generated markup) are left out. -/
def elements : List HNode → List HNode
  | [] => []
  | .text _ :: ns => elements ns
  | .elem tag attr kids :: ns => .elem tag attr kids :: elements ns

/-- Whether the two lists have the same length and `p` holds position by position. -/
def allPairs {α β : Type} (p : α → β → Bool) : List α → List β → Bool
  | [], [] => true
  | x :: xs, y :: ys => p x y && allPairs p xs ys
  | _, _ => false

/-- Whether the node is an anchor for `(title, href)`: an element `a`, with any attributes
among which `href` has that value, whose content (text and inline markup, without a `nav`
element) has the combined text `title`. -/
def isAnchor (t : String × String) : HNode → Bool
  | .text _ => false
  | .elem tag attr body =>
    tag == "a" && attr.lookup "href" == some t.2 && HNode.textOfList body == t.1
      && !HNode.hasTagList "nav" body

/-- Whether the node is something else than an anchor and holds no `nav` element. -/
def isInert : HNode → Bool
  | .text _ => true
  | .elem tag attr kids => tag != "a" && !(HNode.elem tag attr kids).hasTag "nav"

/-- Whether the node is a nested item for `(title, href)`: an element `li` whose first
element child is the anchor; what follows the anchor (deeper levels of the outline) is
neither an anchor nor holds a `nav` element. -/
def isSubItem (t : String × String) : HNode → Bool
  | .text _ => false
  | .elem tag _ kids =>
    tag == "li" &&
      match elements kids with
      | a :: more => isAnchor t a && more.all isInert
      | [] => false

/-- Whether the node holds neither a `nav` element nor an anchor as a child (a list item
that stands for a skipped level of the outline: it has no anchor of its own). -/
def isBlank : HNode → Bool
  | .text _ => true
  | .elem tag _ kids => tag != "nav" && kids.all isInert

/-- Whether the elements are the nested items in order, with any number of elements without
an anchor before, between and after them. -/
def isSubItems : List (String × String) → List HNode → Bool
  | ts, [] => ts.isEmpty
  | ts, s :: es =>
    (match ts with
      | t :: rest => isSubItem t s && isSubItems rest es
      | [] => false)
      || (isBlank s && isSubItems ts es)

/-- Whether the node is the list of the nested items: an element `ul` whose element
children are the nested items in order, and possibly items without an anchor. -/
def isSubList (ts : List (String × String)) : HNode → Bool
  | .text _ => false
  | .elem tag _ kids => tag == "ul" && isSubItems ts (elements kids)

/-- Whether the element children that follow the anchor of a top-level item hold the nested
items: a single list of them, or nothing when there are none. -/
def isNested (ts : List (String × String)) (more : List HNode) : Bool :=
  match more with
  | [] => ts.isEmpty
  | [ul] => isSubList ts ul
  | _ => false

/-- Whether the node is the top-level item `it`: an element `li` whose element children are
the anchor, if the item has one, and then the nested items. -/
def isItem (it : NavItem) : HNode → Bool
  | .text _ => false
  | .elem tag _ kids =>
    tag == "li" &&
      match it.anchor, elements kids with
      | some t, a :: more => isAnchor t a && isNested it.nested more
      | some _, [] => false
      | none, more => isNested it.nested more

/-- Whether the node is the navigation block of the items: an element `nav` whose only
element child is a `ul` whose element children are the items in order. Text nodes may stand
anywhere between the elements, and the elements may carry any attributes. -/
def isNavBlock (items : List NavItem) : HNode → Bool
  | .text _ => false
  | .elem tag _ kids =>
    tag == "nav" &&
      match elements kids with
      | [.elem ul _ lis] => ul == "ul" && allPairs isItem items (elements lis)
      | _ => false

/-- A parsed document: the document node, `html`, `head` and `body` with their children. -/
def pageDocument (head body : List HNode) : HNode :=
  .elem "" [] [.elem "html" [] [.elem "head" [] head, .elem "body" [] body]]

/-- A table-of-contents entry without children. -/
def tocLeaf (t : String × String) : Toc := .mk t.1 t.2 []

/-- The entries that an item contributes to the top level: the item itself with its nested
items as children if it is anchored, its nested items otherwise. -/
def tocOfItem (it : NavItem) : List Toc :=
  match it.anchor with
  | some t => [.mk t.1 t.2 (it.nested.map tocLeaf)]
  | none => it.nested.map tocLeaf

/-- The collaborators of `quietEnv`, with an HTML parser that returns the document `doc`. -/
def docEnv (doc : HNode) : Env :=
  { quietEnv with parseHtml := fun _ => some doc }

/-- The navigation block that the Markdown renderer writes for a page with the headings
`# Install`, `## Linux`, `### Debian`, `# Usage`, as the HTML parser returns it: line breaks
are text nodes between the elements. -/
def outlineNav : HNode :=
  .elem "nav" []
    [.text "\n\n",
     .elem "ul" []
      [.text "\n",
       .elem "li" []
        [.elem "a" [("href", "#toc_0")] [.text "Install"],
         .text "\n",
         .elem "ul" []
          [.text "\n",
           .elem "li" []
            [.elem "a" [("href", "#toc_1")] [.text "Linux"],
             .text "\n",
             .elem "ul" []
              [.text "\n",
               .elem "li" [] [.elem "a" [("href", "#toc_2")] [.text "Debian"]],
               .text "\n"]],
           .text "\n"]],
       .text "\n\n",
       .elem "li" []
        [.elem "a" [("href", "#toc_3")] [.elem "code" [] [.text "Us"], .text "age"]],
       .text "\n"],
     .text "\n\n"]

/-- The items of `outlineNav`: two anchored items, the first with one nested item and the
second with none. -/
def outlineItems : List NavItem :=
  [{ anchor := some ("Install", "#toc_0"), nested := [("Linux", "#toc_1")] },
   { anchor := some ("Usage", "#toc_3"), nested := [] }]

/-- What follows `outlineNav` in the page. -/
def outlineRest : List HNode :=
  [.text "\n\n", .elem "h1" [("id", "toc_0")] [.text "Install"], .text "\n\n\n",
   .elem "p" [] [.text "hello"], .text "\n"]

/-- The page of `outlineNav`. -/
def outlinePage : HNode := pageDocument [] (outlineNav :: outlineRest)

/-- The navigation block of a page that starts with the headings `## Linux`, `## Mac`: one
item without an anchor that holds the two nested anchored items. -/
def orphanNav : HNode :=
  .elem "nav" []
    [.text "\n\n",
     .elem "ul" []
      [.text "\n",
       .elem "li" []
        [.text "\n",
         .elem "ul" []
          [.text "\n",
           .elem "li" [] [.elem "a" [("href", "#toc_0")] [.text "Linux"]],
           .text "\n\n",
           .elem "li" [] [.elem "a" [("href", "#toc_1")] [.text "Mac"]],
           .text "\n"]],
       .text "\n"],
     .text "\n\n"]

/-- The items of `orphanNav`. -/
def orphanItems : List NavItem :=
  [{ anchor := none, nested := [("Linux", "#toc_0"), ("Mac", "#toc_1")] }]

/-- The page of `orphanNav`. -/
def orphanPage : HNode := pageDocument [] [orphanNav]

/-! ## Heap lemmas and the call sequence of `initNode` -/

section
variable (cfg : Config) (Slugify : String → String) (rawLink : Node → String)

@[simp] theorem modify_heap_self (st : Build) (p : Nat) (f : Node → Node) :
    (st.modify p f).heap p = f (st.heap p) := by simp [Build.modify]

theorem modify_heap_ne (st : Build) (p a : Nat) (f : Node → Node) (h : a ≠ p) :
    (st.modify p f).heap a = st.heap a := by simp [Build.modify, h]

theorem modify_heap (st : Build) (p a : Nat) (f : Node → Node) :
    (st.modify p f).heap a = if a = p then f (st.heap p) else st.heap a := rfl

theorem visit_child (st : Build) (p a : Nat) :
    ((visit cfg Slugify rawLink st p).heap a).Child = (st.heap a).Child := by
  unfold visit
  by_cases hap : a = p
  · subst hap
    simp only []
    split_ifs <;> simp [Build.modify, Node.Init]
  · simp only []
    split_ifs <;> simp [Build.modify, hap]

theorem setParent_child (st : Build) (n p a : Nat) :
    ((setParent st n p).heap a).Child = (st.heap a).Child := by
  unfold setParent
  by_cases h : a = n
  · subst h; simp
  · simp [modify_heap_ne _ _ _ _ h]

theorem step_child (st : Build) (v : Nat × Option Nat) (a : Nat) :
    ((step cfg Slugify rawLink st v).heap a).Child = (st.heap a).Child := by
  unfold step
  rw [visit_child]
  cases v.2 <;> simp [setParent_child]

theorem run_child (vs : List (Nat × Option Nat)) (st : Build) (a : Nat) :
    ((run cfg Slugify rawLink st vs).heap a).Child = (st.heap a).Child := by
  induction vs generalizing st with
  | nil => rfl
  | cons v vs ih =>
    simp only [run, List.foldl_cons] at ih ⊢
    rw [ih, step_child]

mutual
theorem shaped_congr (h1 h2 : Nat → Node) (h : ∀ a, (h1 a).Child = (h2 a).Child) :
    ∀ t : Tree, t.shaped h1 = t.shaped h2
  | .node a ks => by
    simp only [Tree.shaped]
    rw [h a, shapedList_congr h1 h2 h ks]
theorem shapedList_congr (h1 h2 : Nat → Node) (h : ∀ a, (h1 a).Child = (h2 a).Child) :
    ∀ ts : List Tree, Tree.shapedList h1 ts = Tree.shapedList h2 ts
  | [] => rfl
  | t :: ts => by
    simp only [Tree.shapedList]
    rw [shaped_congr h1 h2 h t, shapedList_congr h1 h2 h ts]
end

theorem run_append (st : Build) (xs ys : List (Nat × Option Nat)) :
    run cfg Slugify rawLink st (xs ++ ys)
      = run cfg Slugify rawLink (run cfg Slugify rawLink st xs) ys := by
  simp [run, List.foldl_append]

mutual
theorem initNode_eq_run : ∀ (t : Tree) (fuel : Nat) (st : Build),
    t.depth < fuel → t.shaped st.heap = true →
    initNode cfg Slugify rawLink fuel st t.addr
      = some (run cfg Slugify rawLink st (t.visits none))
  | .node a ks, 0, st, hd, _ => by omega
  | .node a ks, fuel + 1, st, hd, hs => by
    simp only [Tree.shaped, Bool.and_eq_true, beq_iff_eq] at hs
    simp only [Tree.depth] at hd
    simp only [initNode, Tree.addr, visit_child, hs.1, Tree.visits, run, List.foldl_cons]
    have hs2 : Tree.shapedList (visit cfg Slugify rawLink st a).heap ks = true := by
      rw [shapedList_congr _ st.heap (visit_child cfg Slugify rawLink st a)]; exact hs.2
    have := initChildren_eq_run ks fuel (visit cfg Slugify rawLink st a) a (by omega) hs2
    simpa [run, step] using this
theorem initChildren_eq_run : ∀ (ks : List Tree) (fuel : Nat) (st : Build) (p : Nat),
    Tree.depthList ks ≤ fuel → Tree.shapedList st.heap ks = true →
    (ks.map Tree.addr).foldlM
        (fun st n => initNode cfg Slugify rawLink fuel (setParent st n p) n) st
      = some (run cfg Slugify rawLink st (Tree.visitsList p ks))
  | [], _, st, p, _, _ => by simp [Tree.visitsList, run]
  | .node a ks :: ts, fuel, st, p, hd, hs => by
    simp only [Tree.shapedList, Bool.and_eq_true] at hs
    simp only [Tree.depthList] at hd
    have h1 : (Tree.node a ks).shaped (setParent st a p).heap = true := by
      rw [shaped_congr _ st.heap (setParent_child st a p)]; exact hs.1
    have e1 := initNode_eq_run (.node a ks) fuel (setParent st a p) (by omega) h1
    simp only [Tree.addr] at e1
    simp only [List.map_cons, List.foldlM_cons, Tree.addr, e1, Option.some_bind,
      Option.bind_eq_bind, Tree.visitsList, run_append]
    have h2 : Tree.shapedList
        (run cfg Slugify rawLink (setParent st a p) ((Tree.node a ks).visits none)).heap ts
          = true := by
      rw [shapedList_congr _ st.heap]
      · exact hs.2
      · intro b; rw [run_child, setParent_child]
    have e2 := initChildren_eq_run ts fuel _ p (by omega) h2
    rw [e2]
    simp [Tree.visits, run, step]
end

theorem visit_heap (st : Build) (p : Nat) :
    (visit cfg Slugify rawLink st p).heap = fun a =>
      if a = p then
        { Node.Init rawLink (st.heap p) with
          Link := visitLink cfg Slugify rawLink st.pinyin (st.heap p) }
      else st.heap a := by
  funext a
  unfold visit visitLink
  by_cases hap : a = p
  · subst hap
    simp only []
    split_ifs <;> simp_all [Build.modify, Node.Init]
  · simp only []
    split_ifs <;> simp_all [Build.modify, Node.Init]

theorem visit_pinyin (st : Build) (p : Nat) :
    (visit cfg Slugify rawLink st p).pinyin
      = visitTable cfg Slugify rawLink st.pinyin (st.heap p) := by
  unfold visit visitTable
  simp only []
  split_ifs <;> simp_all [Build.modify, Node.Init]

theorem visit_nodeList (st : Build) (p : Nat) :
    (visit cfg Slugify rawLink st p).nodeList
      = st.nodeList ++ if (st.heap p).Path != "" then [p] else [] := by
  unfold visit
  simp only []
  split_ifs <;> simp_all [Build.modify, Node.Init]

theorem visit_index (st : Build) (p : Nat) :
    (visit cfg Slugify rawLink st p).index
      = if (st.heap p).IsIndex then some p else st.index := by
  unfold visit
  simp only []
  split_ifs <;> simp_all [Build.modify, Node.Init]

theorem step_heap_ne (st : Build) (v : Nat × Option Nat) (a : Nat) (h : a ≠ v.1) :
    (step cfg Slugify rawLink st v).heap a = st.heap a := by
  unfold step
  rw [visit_heap]
  simp only [h, if_false]
  cases v.2 <;> simp [setParent, Build.modify, h]

theorem step_heap_self (st : Build) (v : Nat × Option Nat) :
    (step cfg Slugify rawLink st v).heap v.1
      = { Node.Init rawLink (entry st v) with
          Link := visitLink cfg Slugify rawLink st.pinyin (entry st v) } := by
  unfold step
  rw [visit_heap]
  simp only [if_true]
  unfold entry
  cases v.2 <;> simp [setParent, Build.modify]

theorem step_pinyin (st : Build) (v : Nat × Option Nat) :
    (step cfg Slugify rawLink st v).pinyin
      = visitTable cfg Slugify rawLink st.pinyin (entry st v) := by
  unfold step
  rw [visit_pinyin]
  unfold entry
  cases v.2 <;> simp [setParent, Build.modify]

theorem step_nodeList (st : Build) (v : Nat × Option Nat) :
    (step cfg Slugify rawLink st v).nodeList
      = st.nodeList ++ if (st.heap v.1).Path != "" then [v.1] else [] := by
  unfold step
  rw [visit_nodeList]
  cases v.2 <;> simp [setParent, Build.modify]

theorem step_index (st : Build) (v : Nat × Option Nat) :
    (step cfg Slugify rawLink st v).index
      = if (st.heap v.1).IsIndex then some v.1 else st.index := by
  unfold step
  rw [visit_index]
  cases v.2 <;> simp [setParent, Build.modify]

theorem step_path (st : Build) (v : Nat × Option Nat) (a : Nat) :
    ((step cfg Slugify rawLink st v).heap a).Path = (st.heap a).Path := by
  by_cases h : a = v.1
  · subst h
    rw [step_heap_self]
    unfold entry Node.Init
    cases v.2 <;> rfl
  · rw [step_heap_ne _ _ _ _ _ _ h]

theorem step_isIndex (st : Build) (v : Nat × Option Nat) (a : Nat) :
    ((step cfg Slugify rawLink st v).heap a).IsIndex = (st.heap a).IsIndex := by
  by_cases h : a = v.1
  · subst h
    rw [step_heap_self]
    unfold entry Node.Init
    cases v.2 <;> rfl
  · rw [step_heap_ne _ _ _ _ _ _ h]

theorem step_isFile_self (st : Build) (v : Nat × Option Nat) :
    ((step cfg Slugify rawLink st v).heap v.1).IsFile = ((st.heap v.1).Path != "") := by
  rw [step_heap_self]
  unfold entry Node.Init
  cases v.2 <;> rfl

theorem step_parent_self (st : Build) (a p : Nat) :
    ((step cfg Slugify rawLink st (a, some p)).heap a).Parent = some p := by
  have := step_heap_self cfg Slugify rawLink st (a, some p)
  simp only at this
  rw [this]
  rfl

theorem run_cons (st : Build) (v : Nat × Option Nat) (vs : List (Nat × Option Nat)) :
    run cfg Slugify rawLink st (v :: vs)
      = run cfg Slugify rawLink (step cfg Slugify rawLink st v) vs := rfl

theorem run_heap_of_not_mem (vs : List (Nat × Option Nat)) (st : Build) (a : Nat)
    (h : a ∉ vs.map Prod.fst) : (run cfg Slugify rawLink st vs).heap a = st.heap a := by
  induction vs generalizing st with
  | nil => rfl
  | cons v vs ih =>
    simp only [List.map_cons, List.mem_cons, not_or] at h
    rw [run_cons, ih _ h.2, step_heap_ne _ _ _ _ _ _ h.1]

theorem run_path (vs : List (Nat × Option Nat)) (st : Build) (a : Nat) :
    ((run cfg Slugify rawLink st vs).heap a).Path = (st.heap a).Path := by
  induction vs generalizing st with
  | nil => rfl
  | cons v vs ih => rw [run_cons, ih, step_path]

theorem run_isIndex (vs : List (Nat × Option Nat)) (st : Build) (a : Nat) :
    ((run cfg Slugify rawLink st vs).heap a).IsIndex = (st.heap a).IsIndex := by
  induction vs generalizing st with
  | nil => rfl
  | cons v vs ih => rw [run_cons, ih, step_isIndex]

theorem run_nodeList (vs : List (Nat × Option Nat)) (st : Build) :
    (run cfg Slugify rawLink st vs).nodeList
      = st.nodeList ++ (vs.map Prod.fst).filter (fun a => (st.heap a).Path != "") := by
  induction vs generalizing st with
  | nil => simp [run]
  | cons v vs ih =>
    rw [run_cons, ih, step_nodeList]
    simp only [step_path, List.map_cons, List.filter_cons, List.append_assoc]
    split_ifs <;> simp

theorem run_isFile (vs : List (Nat × Option Nat)) (st : Build) (a : Nat)
    (h : a ∈ vs.map Prod.fst) :
    ((run cfg Slugify rawLink st vs).heap a).IsFile = ((st.heap a).Path != "") := by
  induction vs generalizing st with
  | nil => simp at h
  | cons v vs ih =>
    rw [run_cons]
    by_cases hm : a ∈ vs.map Prod.fst
    · rw [ih _ hm, step_path]
    · simp only [List.map_cons, List.mem_cons] at h
      rcases h with h | h
      · subst h
        rw [run_heap_of_not_mem _ _ _ _ _ _ hm, step_isFile_self]
      · exact absurd h hm

theorem run_index (vs : List (Nat × Option Nat)) (st : Build) (a : Nat)
    (huniq : ∀ b ∈ vs.map Prod.fst, (st.heap b).IsIndex = true → b = a)
    (h : (a ∈ vs.map Prod.fst ∧ (st.heap a).IsIndex = true) ∨ st.index = some a) :
    (run cfg Slugify rawLink st vs).index = some a := by
  induction vs generalizing st with
  | nil => simpa [run] using h
  | cons v vs ih =>
    rw [run_cons]
    apply ih
    · intro b hb hib
      rw [step_isIndex] at hib
      exact huniq b (List.mem_cons_of_mem _ hb) hib
    · rw [step_index, step_isIndex]
      by_cases hv : (st.heap v.1).IsIndex = true
      · right
        have := huniq v.1 (by simp) hv
        rw [if_pos hv, this]
      · simp only [hv]
        rcases h with ⟨hm, hi⟩ | h
        · simp only [List.map_cons, List.mem_cons] at hm
          rcases hm with hm | hm
          · subst hm; exact absurd hi hv
          · exact Or.inl ⟨hm, hi⟩
        · right; simpa using h

theorem run_parent (vs : List (Nat × Option Nat)) (st : Build) (c p : Nat)
    (hnd : (vs.map Prod.fst).Nodup) (h : (c, some p) ∈ vs) :
    ((run cfg Slugify rawLink st vs).heap c).Parent = some p := by
  induction vs generalizing st with
  | nil => simp at h
  | cons v vs ih =>
    rw [run_cons]
    simp only [List.map_cons, List.nodup_cons] at hnd
    rcases List.mem_cons.1 h with h | h
    · subst h
      rw [run_heap_of_not_mem _ _ _ _ _ _ hnd.1, step_parent_self]
    · exact ih _ hnd.2 h

mutual
theorem visits_fst : ∀ (t : Tree) (par : Option Nat), (t.visits par).map Prod.fst = t.preorder
  | .node a ks, par => by
    simp only [Tree.visits, Tree.preorder, List.map_cons, visitsList_fst ks a]
theorem visitsList_fst : ∀ (ts : List Tree) (p : Nat),
    (Tree.visitsList p ts).map Prod.fst = Tree.preorderList ts
  | [], _ => rfl
  | t :: ts, p => by
    simp only [Tree.visitsList, Tree.preorderList, List.map_append, visits_fst t (some p),
      visitsList_fst ts p]
end

theorem roots_mem_visitsList (ts : List Tree) (q c : Nat) (h : c ∈ ts.map Tree.addr) :
    (c, some q) ∈ Tree.visitsList q ts := by
  induction ts with
  | nil => simp at h
  | cons t ts ih =>
    simp only [List.map_cons, List.mem_cons] at h
    simp only [Tree.visitsList, List.mem_append]
    rcases h with h | h
    · left
      cases t with
      | node a ks => simp [Tree.visits, Tree.addr] at h ⊢; exact Or.inl h
    · exact Or.inr (ih h)

mutual
theorem child_mem_visits : ∀ (t : Tree) (par : Option Nat) (heap : Nat → Node) (p c : Nat),
    t.shaped heap = true → p ∈ t.preorder → c ∈ (heap p).Child → (c, some p) ∈ t.visits par
  | .node a ks, par, heap, p, c, hs, hp, hc => by
    simp only [Tree.shaped, Bool.and_eq_true, beq_iff_eq] at hs
    simp only [Tree.preorder, List.mem_cons] at hp
    simp only [Tree.visits, List.mem_cons]
    right
    rcases hp with hp | hp
    · subst hp
      rw [hs.1] at hc
      exact roots_mem_visitsList ks p c hc
    · exact child_mem_visitsList ks a heap p c hs.2 hp hc
theorem child_mem_visitsList : ∀ (ts : List Tree) (q : Nat) (heap : Nat → Node) (p c : Nat),
    Tree.shapedList heap ts = true → p ∈ Tree.preorderList ts → c ∈ (heap p).Child →
      (c, some p) ∈ Tree.visitsList q ts
  | [], _, _, _, _, _, hp, _ => by simp [Tree.preorderList] at hp
  | t :: ts, q, heap, p, c, hs, hp, hc => by
    simp only [Tree.shapedList, Bool.and_eq_true] at hs
    simp only [Tree.preorderList, List.mem_append] at hp
    simp only [Tree.visitsList, List.mem_append]
    rcases hp with hp | hp
    · exact Or.inl (child_mem_visits t (some q) heap p c hs.1 hp hc)
    · exact Or.inr (child_mem_visitsList ts q heap p c hs.2 hp hc)
end

/-- C4: on a navigation tree held in the heap, `initNode` called on the root with an empty
`nodeList` returns, and leaves `nodeList` equal to the depth-first pre-order sequence of the
tree's nodes restricted to the nodes that had a source path when `initNode` was called; these
are the nodes of the tree that end with `IsFile = true` (`Node.Init` sets `IsFile` to "the
source path is not empty"), so `nodeList` is the pre-order sequence restricted to the nodes
with `IsFile = true`; every file-node occurs exactly once and no other node occurs. -/
theorem initNode_nodeList_preorder (t : Tree) (st : Build) (fuel : Nat)
    (hs : t.shaped st.heap = true) (hnd : t.preorder.Nodup) (hd : t.depth < fuel)
    (h0 : st.nodeList = []) :
    ∃ st', initNode cfg Slugify rawLink fuel st t.addr = some st'
      ∧ st'.nodeList = t.preorder.filter (fun a => (st.heap a).Path != "")
      ∧ (∀ a ∈ t.preorder, (st'.heap a).IsFile = ((st.heap a).Path != ""))
      ∧ st'.nodeList = t.preorder.filter (fun a => (st'.heap a).IsFile)
      ∧ (∀ a ∈ t.preorder, (st'.heap a).IsFile = true → st'.nodeList.count a = 1)
      ∧ ∀ a ∈ st'.nodeList, a ∈ t.preorder ∧ (st'.heap a).IsFile = true := by
  refine ⟨_, initNode_eq_run cfg Slugify rawLink t fuel st hd hs, ?_⟩
  have hin : (run cfg Slugify rawLink st (t.visits none)).nodeList
      = t.preorder.filter (fun a => (st.heap a).Path != "") := by
    rw [run_nodeList, h0, visits_fst, List.nil_append]
  have hfile : ∀ a ∈ t.preorder,
      ((run cfg Slugify rawLink st (t.visits none)).heap a).IsFile
        = ((st.heap a).Path != "") := by
    intro a ha
    rw [run_isFile]
    rw [visits_fst]; exact ha
  have hl : (run cfg Slugify rawLink st (t.visits none)).nodeList
      = t.preorder.filter
          (fun a => ((run cfg Slugify rawLink st (t.visits none)).heap a).IsFile) := by
    rw [hin]
    apply List.filter_congr
    intro a ha
    rw [hfile a ha]
  refine ⟨hin, hfile, hl, ?_, ?_⟩
  · intro a ha hf
    rw [hl, List.count_filter (by simpa using hf)]
    exact List.count_eq_one_of_mem hnd ha
  · intro a ha
    rw [hl, List.mem_filter] at ha
    exact ⟨ha.1, by simpa using ha.2⟩

/-- C9: on a navigation tree held in the heap in which exactly one node has `IsIndex = true`,
`initNode` called on the root returns and leaves the home reference `index` pointing to that
node, wherever it sits; and the `Parent` of every node listed in a `Child` slice of the tree is
the node that owns the slice. -/
theorem initNode_index_and_parent (t : Tree) (st : Build) (fuel : Nat) (a : Nat)
    (hs : t.shaped st.heap = true) (hnd : t.preorder.Nodup) (hd : t.depth < fuel)
    (ha : a ∈ t.preorder) (hi : (st.heap a).IsIndex = true)
    (huniq : ∀ b ∈ t.preorder, (st.heap b).IsIndex = true → b = a) :
    ∃ st', initNode cfg Slugify rawLink fuel st t.addr = some st'
      ∧ st'.index = some a ∧ (st'.heap a).IsIndex = true
      ∧ ∀ p ∈ t.preorder, ∀ c ∈ (st'.heap p).Child, (st'.heap c).Parent = some p := by
  refine ⟨_, initNode_eq_run cfg Slugify rawLink t fuel st hd hs, ?_, ?_, ?_⟩
  · apply run_index
    · rw [visits_fst]; exact huniq
    · left; rw [visits_fst]; exact ⟨ha, hi⟩
  · rw [run_isIndex]; exact hi
  · intro p hp c hc
    rw [run_child] at hc
    apply run_parent
    · rw [visits_fst]; exact hnd
    · exact child_mem_visits t none st.heap p c hs hp hc

theorem run_snoc (st : Build) (vs : List (Nat × Option Nat)) (v : Nat × Option Nat) :
    run cfg Slugify rawLink st (vs ++ [v])
      = step cfg Slugify rawLink (run cfg Slugify rawLink st vs) v := by
  simp [run, List.foldl_append]

theorem entry_run (st : Build) (vs : List (Nat × Option Nat)) (v : Nat × Option Nat)
    (h : v.1 ∉ vs.map Prod.fst) :
    entry (run cfg Slugify rawLink st vs) v = entry st v := by
  unfold entry
  rw [run_heap_of_not_mem _ _ _ _ _ _ h]

theorem dedup_table (T : String → Option Nat) (c s : String) :
    (dedup T c).1 s = if s = c then some ((T c).getD 0 + 1) else T s := by
  unfold dedup
  cases h : T c <;> simp

theorem dedup_link (T : String → Option Nat) (c : String) :
    (dedup T c).2 = match T c with
      | none => c
      | some k => c ++ "-" ++ toString (k + 1) := by
  unfold dedup
  cases h : T c <;> simp

theorem occurrences_snoc (st : Build) (c : String) (vs : List (Nat × Option Nat))
    (v : Nat × Option Nat) :
    occurrences cfg Slugify rawLink st c (vs ++ [v])
      = occurrences cfg Slugify rawLink st c vs
        + if deduped cfg rawLink st v && candidate Slugify rawLink st v == c then 1 else 0 := by
  unfold occurrences
  rw [List.filter_append, List.length_append]
  congr 1
  simp only [List.filter_cons, List.filter_nil]
  split_ifs <;> rfl

theorem run_table (st : Build) (vs : List (Nat × Option Nat))
    (hnd : (vs.map Prod.fst).Nodup) (h0 : st.pinyin = fun _ => none) (c : String) :
    (run cfg Slugify rawLink st vs).pinyin c
      = if occurrences cfg Slugify rawLink st c vs = 0 then none
        else some (occurrences cfg Slugify rawLink st c vs) := by
  induction vs using List.reverseRecOn generalizing c with
  | nil => simp [run, occurrences, h0]
  | append_singleton vs v ih =>
    rw [List.map_append, List.nodup_append] at hnd
    have hv : v.1 ∉ vs.map Prod.fst := by
      intro hm
      exact hnd.2.2 hm (by simp)
    rw [run_snoc, step_pinyin, entry_run _ _ _ _ _ _ hv, occurrences_snoc]
    unfold visitTable
    have hded : deduped cfg rawLink st v = (cfg.LinkPinyin && rawLink (entry st v) != "") := rfl
    have hcand : candidate Slugify rawLink st v = slugLink Slugify (rawLink (entry st v)) := rfl
    rw [← hded, ← hcand]
    by_cases hd : deduped cfg rawLink st v = true
    · rw [if_pos hd, dedup_table, ih hnd.1, hd]
      by_cases hc : c = candidate Slugify rawLink st v
      · subst hc
        simp only [if_true, beq_self_eq_true, Bool.and_self]
        split_ifs with h1 <;> simp_all
      · have hc' : (candidate Slugify rawLink st v == c) = false := by
          simpa using fun h => hc h.symm
        simp only [hc, hc', if_false, Bool.and_false, Nat.add_zero, Bool.false_eq_true]
        exact ih hnd.1 c
    · rw [if_neg hd, ih hnd.1]
      simp [hd]

theorem run_link (st : Build) (pre post : List (Nat × Option Nat)) (v : Nat × Option Nat)
    (hnd : ((pre ++ v :: post).map Prod.fst).Nodup) (h0 : st.pinyin = fun _ => none)
    (hd : deduped cfg rawLink st v = true) :
    ((run cfg Slugify rawLink st (pre ++ v :: post)).heap v.1).Link
      = if occurrences cfg Slugify rawLink st (candidate Slugify rawLink st v) pre = 0 then
          candidate Slugify rawLink st v
        else candidate Slugify rawLink st v ++ "-"
          ++ toString (occurrences cfg Slugify rawLink st (candidate Slugify rawLink st v) pre + 1)
    := by
  rw [List.map_append, List.map_cons, List.nodup_append, List.nodup_cons] at hnd
  have hpre : v.1 ∉ pre.map Prod.fst := fun hm => hnd.2.2 hm (by simp)
  rw [run_append, run_cons, run_heap_of_not_mem _ _ _ _ _ _ hnd.2.1.1, step_heap_self,
    entry_run _ _ _ _ _ _ hpre]
  simp only []
  unfold visitLink
  have hded : deduped cfg rawLink st v = (cfg.LinkPinyin && rawLink (entry st v) != "") := rfl
  have hcand : candidate Slugify rawLink st v = slugLink Slugify (rawLink (entry st v)) := rfl
  rw [← hded, ← hcand, if_pos hd, dedup_link, run_table _ _ _ _ _ hnd.1 h0]
  split_ifs with h1 <;> simp

/-- C3 (as the code behaves): with transliteration enabled and an empty dedup table, on a
navigation tree held in the heap `initNode` returns, and a node whose raw link is not empty
and whose slugified candidate `c` was the candidate of `n` earlier calls ends with the link `c`
when `n = 0` and with `c` followed by `-` and the decimal `n + 1` when `n ≥ 1`: the first
repeat receives `-2`. -/
theorem initNode_link_of_repeat (t : Tree) (st : Build) (fuel : Nat)
    (hs : t.shaped st.heap = true) (hnd : t.preorder.Nodup) (hd : t.depth < fuel)
    (hcfg : cfg.LinkPinyin = true) (h0 : st.pinyin = fun _ => none) :
    ∃ st', initNode cfg Slugify rawLink fuel st t.addr = some st'
      ∧ ∀ pre v post, t.visits none = pre ++ v :: post →
        (Node.Init rawLink (entry st v)).Link ≠ "" →
        (st'.heap v.1).Link
          = if occurrences cfg Slugify rawLink st (candidate Slugify rawLink st v) pre = 0 then
              candidate Slugify rawLink st v
            else candidate Slugify rawLink st v ++ "-" ++ toString
              (occurrences cfg Slugify rawLink st (candidate Slugify rawLink st v) pre + 1) := by
  refine ⟨_, initNode_eq_run cfg Slugify rawLink t fuel st hd hs, ?_⟩
  intro pre v post hv hne
  rw [hv]
  apply run_link
  · rw [← hv, visits_fst]; exact hnd
  · exact h0
  · unfold deduped
    simp [hcfg, hne]
end

/-- Witness of C3 on `twinSite`. -/
theorem initNode_link_of_repeat_witness :
    ∃ st', initNode cfgPinyin plainSlug pathLink 2 twinSite twinTree.addr = some st'
      ∧ ∀ pre v post, twinTree.visits none = pre ++ v :: post →
        (Node.Init pathLink (entry twinSite v)).Link ≠ "" →
        (st'.heap v.1).Link
          = if occurrences cfgPinyin plainSlug pathLink twinSite
                (candidate plainSlug pathLink twinSite v) pre = 0 then
              candidate plainSlug pathLink twinSite v
            else candidate plainSlug pathLink twinSite v ++ "-" ++ toString
              (occurrences cfgPinyin plainSlug pathLink twinSite
                (candidate plainSlug pathLink twinSite v) pre + 1) :=
  initNode_link_of_repeat cfgPinyin plainSlug pathLink twinTree twinSite 2
    (by decide) (by decide) (by decide) rfl rfl

/-- C3 as stated fails: in `twinSite` the second node whose candidate is `a` (the first
repeat) receives the link `a-2`, not `a-1`. -/
theorem initNode_first_repeat_not_suffix_one :
    (initNode cfgPinyin plainSlug pathLink 2 twinSite 0).map (fun st => (st.heap 1).Link)
        = some "a"
      ∧ (initNode cfgPinyin plainSlug pathLink 2 twinSite 0).map (fun st => (st.heap 2).Link)
        = some "a-2"
      ∧ ¬ (initNode cfgPinyin plainSlug pathLink 2 twinSite 0).map (fun st => (st.heap 2).Link)
        = some ("a" ++ "-1") := by
  decide

/-- C2 fails on `clashSite`: the second and the third entry are different nodes, both end
with the non-empty link `a-2`. -/
theorem initNode_links_collide :
    (initNode cfgPinyin plainSlug pathLink 2 clashSite 0).map
        (fun st => ((st.heap 2).Link, (st.heap 3).Link, st.nodeList))
      = some ("a-2", "a-2", [1, 2, 3]) := by
  decide

/-- Witness of C4 on `guideSite`: the folders 0 and 1 have no source path, the pages 3
(below folder 1) and 2 have one, so the list is `[3, 2]`. -/
theorem initNode_nodeList_preorder_witness :
    ∃ st', initNode cfgPinyin plainSlug pathLink 3 guideSite guideTree.addr = some st'
      ∧ st'.nodeList = guideTree.preorder.filter (fun a => (guideSite.heap a).Path != "")
      ∧ (∀ a ∈ guideTree.preorder,
          (st'.heap a).IsFile = ((guideSite.heap a).Path != ""))
      ∧ st'.nodeList = guideTree.preorder.filter (fun a => (st'.heap a).IsFile)
      ∧ (∀ a ∈ guideTree.preorder, (st'.heap a).IsFile = true → st'.nodeList.count a = 1)
      ∧ ∀ a ∈ st'.nodeList, a ∈ guideTree.preorder ∧ (st'.heap a).IsFile = true :=
  initNode_nodeList_preorder cfgPinyin plainSlug pathLink guideTree guideSite 3
    (by decide) (by decide) (by decide) rfl

/-- Witness of C9 on `guideSite`, whose index node sits two levels below the root. -/
theorem initNode_index_and_parent_witness :
    ∃ st', initNode cfgPinyin plainSlug pathLink 3 guideSite guideTree.addr = some st'
      ∧ st'.index = some 3 ∧ (st'.heap 3).IsIndex = true
      ∧ ∀ p ∈ guideTree.preorder, ∀ c ∈ (st'.heap p).Child, (st'.heap c).Parent = some p :=
  initNode_index_and_parent cfgPinyin plainSlug pathLink guideTree guideSite 3 3
    (by decide) (by decide) (by decide) (by decide) rfl (by decide)


/-! ## `makeNode` -/

theorem SetActive_spec : ∀ (fuel : Nat) (st s : Build) (node : Nat) (b : Bool),
    SetActive fuel st node b = some s →
      s.nodeList = st.nodeList ∧ s.search = st.search ∧ s.site = st.site
        ∧ ∀ a, (s.heap a).still = (st.heap a).still
  | 0, _, _, _, _, h => by simp [SetActive] at h
  | fuel + 1, st, s, node, b, h => by
    simp only [SetActive] at h
    have hm : ∀ a, ((st.modify node fun n => { n with Active := b }).heap a).still
        = (st.heap a).still := by
      intro a
      by_cases ha : a = node
      · subst ha; simp [Build.modify, Node.still]
      · simp [Build.modify, ha]
    split at h
    · cases h
      exact ⟨rfl, rfl, rfl, hm⟩
    · obtain ⟨h1, h2, h3, h4⟩ := SetActive_spec fuel _ s _ b h
      exact ⟨h1, h2, h3, fun a => (h4 a).trans (hm a)⟩

theorem rooted_congr (h1 h2 : Nat → Node) (h : ∀ a, (h1 a).Parent = (h2 a).Parent) :
    ∀ (fuel a : Nat), rooted h1 fuel a = rooted h2 fuel a
  | 0, _ => rfl
  | fuel + 1, a => by
    simp only [rooted, h a]
    split
    · rfl
    · exact rooted_congr h1 h2 h fuel _

theorem still_parent {n m : Node} (h : n.still = m.still) : n.Parent = m.Parent := by
  simpa [Node.still] using congrArg Node.Parent h

theorem still_prev {n m : Node} (h : n.still = m.still) : n.Prev = m.Prev := by
  simpa [Node.still] using congrArg Node.Prev h

theorem still_next {n m : Node} (h : n.still = m.still) : n.Next = m.Next := by
  simpa [Node.still] using congrArg Node.Next h

theorem still_link {n m : Node} (h : n.still = m.still) : n.Link = m.Link := by
  simpa [Node.still] using congrArg Node.Link h

theorem still_title {n m : Node} (h : n.still = m.still) : n.Title = m.Title := by
  simpa [Node.still] using congrArg Node.Title h

theorem SetActive_some : ∀ (fuel : Nat) (st : Build) (node : Nat) (b : Bool),
    rooted st.heap fuel node = true → ∃ s, SetActive fuel st node b = some s
  | 0, _, _, _, h => by simp [rooted] at h
  | fuel + 1, st, node, b, h => by
    simp only [SetActive]
    have hp : ((st.modify node fun n => { n with Active := b }).heap node).Parent
        = (st.heap node).Parent := by simp [Build.modify]
    simp only [rooted] at h
    rw [hp]
    cases hq : (st.heap node).Parent with
    | none => exact ⟨_, rfl⟩
    | some p =>
      rw [hq] at h
      simp only at h ⊢
      apply SetActive_some
      rw [rooted_congr _ st.heap _ fuel p]
      · exact h
      · intro a
        by_cases ha : a = node
        · subst ha; simp [Build.modify]
        · simp [Build.modify, ha]

theorem nodeAt_ok (L : List Nat) (j : Nat) (hj : j < L.length) :
    nodeAt L (j : Int) = .ok L[j] := by
  unfold nodeAt
  rw [if_neg (by omega), Int.toNat_ofNat, List.getElem?_eq_getElem hj]

theorem nodeAt_prev (L : List Nat) (i : Nat) (hi : i < L.length) :
    ∃ b, L[(i + L.length - 1) % L.length]? = some b
      ∧ nodeAt L (if (i : Int) - 1 < 0 then (L.length : Int) - 1 else (i : Int) - 1) = .ok b := by
  have hlt : (i + L.length - 1) % L.length < L.length := Nat.mod_lt _ (by omega)
  refine ⟨L[(i + L.length - 1) % L.length], List.getElem?_eq_getElem hlt, ?_⟩
  by_cases h0 : i = 0
  · have e : (i + L.length - 1) % L.length = L.length - 1 := by
      rw [h0, Nat.zero_add]; exact Nat.mod_eq_of_lt (by omega)
    have hidx : (if (i : Int) - 1 < 0 then (L.length : Int) - 1 else (i : Int) - 1)
        = ((L.length - 1 : Nat) : Int) := by
      rw [if_pos (by omega)]; omega
    rw [hidx, nodeAt_ok L _ (by omega)]
    simp only [e]
  · have e : (i + L.length - 1) % L.length = i - 1 := by
      have : i + L.length - 1 = (i - 1) + L.length := by omega
      rw [this, Nat.add_mod_right]; exact Nat.mod_eq_of_lt (by omega)
    have hidx : (if (i : Int) - 1 < 0 then (L.length : Int) - 1 else (i : Int) - 1)
        = ((i - 1 : Nat) : Int) := by
      rw [if_neg (by omega)]; omega
    rw [hidx, nodeAt_ok L _ (by omega)]
    simp only [e]

theorem nodeAt_next (L : List Nat) (i : Nat) (hi : i < L.length) :
    ∃ b, L[(i + 1) % L.length]? = some b
      ∧ nodeAt L (if (i : Int) + 1 > (L.length : Int) - 1 then 0 else (i : Int) + 1) = .ok b := by
  have hlt : (i + 1) % L.length < L.length := Nat.mod_lt _ (by omega)
  refine ⟨L[(i + 1) % L.length], List.getElem?_eq_getElem hlt, ?_⟩
  by_cases h0 : i + 1 = L.length
  · have e : (i + 1) % L.length = 0 := by rw [h0]; exact Nat.mod_self _
    have hidx : (if (i : Int) + 1 > (L.length : Int) - 1 then 0 else (i : Int) + 1)
        = ((0 : Nat) : Int) := by
      rw [if_pos (by omega)]; rfl
    rw [hidx, nodeAt_ok L _ (by omega)]
    simp only [e]
  · have e : (i + 1) % L.length = i + 1 := Nat.mod_eq_of_lt (by omega)
    have hidx : (if (i : Int) + 1 > (L.length : Int) - 1 then 0 else (i : Int) + 1)
        = ((i + 1 : Nat) : Int) := by
      rw [if_neg (by omega)]; omega
    rw [hidx, nodeAt_ok L _ (by omega)]
    simp only [e]

theorem still_bare {n m : Node} (h : n.still = m.still) : n.bare = m.bare := by
  have := congrArg Node.bare h
  simpa [Node.still, Node.bare] using this

theorem bare_parent {n m : Node} (h : n.bare = m.bare) : n.Parent = m.Parent := by
  simpa [Node.bare] using congrArg Node.Parent h

theorem bare_link {n m : Node} (h : n.bare = m.bare) : n.Link = m.Link := by
  simpa [Node.bare] using congrArg Node.Link h

theorem bare_title {n m : Node} (h : n.bare = m.bare) : n.Title = m.Title := by
  simpa [Node.bare] using congrArg Node.Title h

theorem rooted_of_bare (h1 h2 : Nat → Node) (h : ∀ a, (h1 a).bare = (h2 a).bare)
    (fuel a : Nat) : rooted h1 fuel a = rooted h2 fuel a :=
  rooted_congr h1 h2 (fun b => bare_parent (h b)) fuel a

theorem enter_spec (fuel : Nat) (st : Build) (i node : Nat)
    (hi : st.nodeList[i]? = some node) (hr : rooted st.heap fuel node = true) :
    ∃ s, enter fuel ((st.nodeList.length : Int) - 1) st i node = .ok s
      ∧ s.nodeList = st.nodeList ∧ s.search = st.search
      ∧ (∀ a, (s.heap a).bare = (st.heap a).bare)
      ∧ (∀ a, a ≠ node → (s.heap a).Prev = (st.heap a).Prev ∧ (s.heap a).Next = (st.heap a).Next)
      ∧ (s.heap node).Prev = st.nodeList[(i + st.nodeList.length - 1) % st.nodeList.length]?
      ∧ (s.heap node).Next = st.nodeList[(i + 1) % st.nodeList.length]? := by
  obtain ⟨s1, h1⟩ := SetActive_some fuel st node true hr
  obtain ⟨hl1, hs1, _, hh1⟩ := SetActive_spec fuel st s1 node true h1
  have hlt : i < st.nodeList.length := by
    by_contra hge
    rw [List.getElem?_eq_none (by omega)] at hi
    cases hi
  obtain ⟨b, hb, hpb⟩ := nodeAt_prev st.nodeList i hlt
  obtain ⟨c, hc, hpc⟩ := nodeAt_next st.nodeList i hlt
  refine ⟨(s1.modify node (fun n => { n with Prev := some b })).modify node
      (fun n => { n with Next := some c }), ?_, ?_, ?_, ?_, ?_, ?_, ?_⟩
  · unfold enter
    simp only [h1, hl1, hpb]
    have e : (s1.modify node fun n => { n with Prev := some b }).nodeList = st.nodeList := hl1
    simp only [e, hpc]
  · exact hl1
  · exact hs1
  · intro a
    rw [← still_bare (hh1 a)]
    by_cases ha : a = node
    · subst ha; simp [Build.modify, Node.bare]
    · simp [Build.modify, ha]
  · intro a ha
    rw [← still_prev (hh1 a), ← still_next (hh1 a)]
    simp [Build.modify, ha]
  · rw [hb]; simp [Build.modify]
  · rw [hc]; simp [Build.modify]

theorem makeBody_spec (env : Env) (hrel : env.reliable) (st : Build) (node : Nat) :
    ∃ s doc, makeBody env st node = .ok s
      ∧ s.heap = st.heap ∧ s.nodeList = st.nodeList ∧ s.search = st.search ++ [doc]
      ∧ doc.Location = (st.heap node).Link ∧ doc.Title = (st.heap node).Title := by
  obtain ⟨hp, he, hw⟩ := hrel
  unfold makeBody parseToc
  have hp' := hp (env.parseMd (env.Join [env.cfg.DocsDir, (st.heap node).Path]))
  obtain ⟨dom, hdom⟩ := Option.isSome_iff_exists.1 hp'
  simp only [hdom]
  generalize hdoc : AddDoc st _ = st2
  generalize htoc : Toc.mk "" "" _ = tocs
  obtain ⟨out, hout⟩ := Option.isSome_iff_exists.1
    (he st2 tocs (env.Html (dom.remove "nav")) node)
  simp only [hout, hw, if_true]
  subst hdoc
  exact ⟨_, _, rfl, rfl, rfl, rfl, rfl, rfl⟩

theorem leave_spec (fuel : Nat) (st : Build) (node : Nat)
    (hr : rooted st.heap fuel node = true) :
    ∃ s, leave fuel st node = .ok s ∧ s.nodeList = st.nodeList ∧ s.search = st.search
      ∧ ∀ a, (s.heap a).still = (st.heap a).still := by
  obtain ⟨s1, h1⟩ := SetActive_some fuel st node false hr
  obtain ⟨hl1, hs1, _, hh1⟩ := SetActive_spec fuel st s1 node false h1
  exact ⟨s1, by simp [leave, h1], hl1, hs1, hh1⟩

theorem makeNodeLoop_spec (env : Env) (hrel : env.reliable) (fuel : Nat) (L : List Nat) :
    ∀ (nodes pre post : List Nat) (st : Build), L = pre ++ nodes ++ post → st.nodeList = L →
      (∀ a ∈ L, rooted st.heap fuel a = true) →
      ∃ s, makeNodeLoop env fuel ((L.length : Int) - 1) pre.length nodes st = .ok s
        ∧ s.nodeList = L
        ∧ (∀ a, (s.heap a).bare = (st.heap a).bare)
        ∧ (∀ a, a ∉ nodes →
            (s.heap a).Prev = (st.heap a).Prev ∧ (s.heap a).Next = (st.heap a).Next)
        ∧ (L.Nodup → ∀ k a, pre.length ≤ k → k < pre.length + nodes.length → L[k]? = some a →
            (s.heap a).Prev = L[(k + L.length - 1) % L.length]?
              ∧ (s.heap a).Next = L[(k + 1) % L.length]?)
        ∧ s.search.map (fun d => (d.Location, d.Title))
            = st.search.map (fun d => (d.Location, d.Title))
              ++ nodes.map (fun a => ((st.heap a).Link, (st.heap a).Title)) := by
  intro nodes
  induction nodes with
  | nil =>
    intro pre post st _ hst _
    refine ⟨st, rfl, hst, fun _ => rfl, fun _ _ => ⟨rfl, rfl⟩, ?_, by simp⟩
    intro _ k a h1 h2
    simp at h2
    omega
  | cons node rest ih =>
    intro pre post st hL hst hr
    have hmem : node ∈ L := by rw [hL]; simp
    have hi : st.nodeList[pre.length]? = some node := by
      have e : pre ++ (node :: rest) ++ post = pre ++ node :: (rest ++ post) := by simp
      rw [hst, hL, e, List.getElem?_append_right (le_refl _)]
      simp
    obtain ⟨s2, he, hl2, hs2, hb2, ho2, hp2, hn2⟩ :=
      enter_spec fuel st pre.length node hi (hr node hmem)
    rw [hst] at he hp2 hn2 hl2
    have hr2 : ∀ a, rooted s2.heap fuel a = rooted st.heap fuel a :=
      fun a => rooted_of_bare _ _ hb2 fuel a
    obtain ⟨s3, doc, hbody, hh3, hl3, hs3, hloc, htit⟩ := makeBody_spec env hrel s2 node
    have hr3 : rooted s3.heap fuel node = true := by
      rw [hh3, hr2]; exact hr node hmem
    obtain ⟨s4, hlv, hl4, hs4, hh4⟩ := leave_spec fuel s3 node hr3
    have hb4 : ∀ a, (s4.heap a).bare = (st.heap a).bare := by
      intro a
      rw [still_bare (hh4 a), hh3]; exact hb2 a
    have hL' : L = (pre ++ [node]) ++ rest ++ post := by rw [hL]; simp
    obtain ⟨s, hloop, hl, hb, ho, hk, hsearch⟩ := ih (pre ++ [node]) post s4 hL'
      (by rw [hl4, hl3, hl2])
      (fun a ha => by rw [rooted_of_bare _ _ hb4 fuel a]; exact hr a ha)
    rw [List.length_append, List.length_singleton] at hloop hk
    refine ⟨s, ?_, hl, fun a => (hb a).trans (hb4 a), ?_, ?_, ?_⟩
    · simp only [makeNodeLoop, he, hbody, hlv]
      exact hloop
    · intro a ha
      simp only [List.mem_cons, not_or] at ha
      obtain ⟨h1, h2⟩ := ho a ha.2
      obtain ⟨h3, h4⟩ := ho2 a ha.1
      rw [h1, h2, still_prev (hh4 a), still_next (hh4 a), hh3, h3, h4]
      exact ⟨rfl, rfl⟩
    · intro hnd k a h1 h2 hka
      have hnotin : node ∉ rest := by
        rw [hL] at hnd
        have h1 := (List.nodup_append.1 hnd).1
        have h2 := (List.nodup_append.1 h1).2.1
        exact (List.nodup_cons.1 h2).1
      rw [List.length_cons] at h2
      by_cases hk0 : k = pre.length
      · subst hk0
        have hLk : L[pre.length]? = some node := by rw [← hst]; exact hi
        rw [hLk] at hka
        cases hka
        obtain ⟨h3, h4⟩ := ho node hnotin
        rw [h3, h4, still_prev (hh4 node), still_next (hh4 node), hh3, hp2, hn2]
        exact ⟨rfl, rfl⟩
      · exact hk hnd k a (by omega) (by omega) hka
    · rw [hsearch, hs4, hs3, hs2]
      simp only [List.map_append, List.map_cons, List.map_nil, List.append_assoc,
        List.singleton_append]
      congr 1
      rw [hloc, htit]
      have e1 : (s2.heap node).Link = (st.heap node).Link := bare_link (hb2 node)
      have e2 : (s2.heap node).Title = (st.heap node).Title := bare_title (hb2 node)
      rw [e1, e2]
      congr 1
      apply List.map_congr_left
      intro a _
      rw [bare_link (hb4 a), bare_title (hb4 a)]

theorem makeNode_spec (env : Env) (hrel : env.reliable) (fuel : Nat) (st : Build)
    (hr : ∀ a ∈ st.nodeList, rooted st.heap fuel a = true) :
    ∃ s, makeNode env fuel st = .ok s
      ∧ s.nodeList = st.nodeList
      ∧ (∀ a, (s.heap a).bare = (st.heap a).bare)
      ∧ (st.nodeList.Nodup → ∀ k a, st.nodeList[k]? = some a →
          (s.heap a).Prev = st.nodeList[(k + st.nodeList.length - 1) % st.nodeList.length]?
            ∧ (s.heap a).Next = st.nodeList[(k + 1) % st.nodeList.length]?)
      ∧ s.search.map (fun d => (d.Location, d.Title))
          = st.search.map (fun d => (d.Location, d.Title))
            ++ st.nodeList.map (fun a => ((st.heap a).Link, (st.heap a).Title)) := by
  obtain ⟨s, h1, h2, h3, _, h5, h6⟩ :=
    makeNodeLoop_spec env hrel fuel st.nodeList st.nodeList [] [] st (by simp) rfl hr
  refine ⟨s, h1, h2, h3, ?_, h6⟩
  intro hnd k a hk
  have hlt : k < st.nodeList.length := by
    by_contra hge
    rw [List.getElem?_eq_none (by omega)] at hk
    cases hk
  exact h5 hnd k a (by simp) (by simpa using hlt) hk

theorem getElem?_some_of_lt (L : List Nat) (k : Nat) (h : k < L.length) :
    ∃ b, L[k]? = some b := ⟨L[k], List.getElem?_eq_getElem h⟩

theorem lt_of_getElem?_some {L : List Nat} {k a : Nat} (h : L[k]? = some a) :
    k < L.length := by
  by_contra hge
  rw [List.getElem?_eq_none (by omega)] at h
  cases h

/-- C1: for a flat list of distinct file-nodes, `makeNode` returns (no slice access is out of
range), and afterwards the node at index `i` has `Next` pointing to the node at index
`(i + 1) mod N` and `Prev` pointing to the node at index `(i - 1 + N) mod N`; when `N = 1`
the sole node is its own `Prev` and `Next`. -/
theorem makeNode_prev_next (env : Env) (fuel : Nat) (st : Build) (hrel : env.reliable)
    (hN : 1 ≤ st.nodeList.length) (hnd : st.nodeList.Nodup)
    (hr : ∀ a ∈ st.nodeList, rooted st.heap fuel a = true) :
    ∃ st', makeNode env fuel st = .ok st'
      ∧ st'.nodeList = st.nodeList
      ∧ (∀ i a, st.nodeList[i]? = some a →
          ∃ n p, st.nodeList[(i + 1) % st.nodeList.length]? = some n
            ∧ st.nodeList[(i + st.nodeList.length - 1) % st.nodeList.length]? = some p
            ∧ (st'.heap a).Next = some n ∧ (st'.heap a).Prev = some p)
      ∧ (st.nodeList.length = 1 → ∀ a ∈ st.nodeList,
          (st'.heap a).Next = some a ∧ (st'.heap a).Prev = some a) := by
  obtain ⟨s, h1, h2, _, h4, _⟩ := makeNode_spec env hrel fuel st hr
  have hpos : 0 < st.nodeList.length := hN
  have key : ∀ i a, st.nodeList[i]? = some a →
      ∃ n p, st.nodeList[(i + 1) % st.nodeList.length]? = some n
        ∧ st.nodeList[(i + st.nodeList.length - 1) % st.nodeList.length]? = some p
        ∧ (s.heap a).Next = some n ∧ (s.heap a).Prev = some p := by
    intro i a hi
    obtain ⟨n, hn⟩ := getElem?_some_of_lt st.nodeList _ (Nat.mod_lt (i + 1) hpos)
    obtain ⟨p, hp⟩ := getElem?_some_of_lt st.nodeList _
      (Nat.mod_lt (i + st.nodeList.length - 1) hpos)
    obtain ⟨e1, e2⟩ := h4 hnd i a hi
    exact ⟨n, p, hn, hp, e2.trans hn, e1.trans hp⟩
  refine ⟨s, h1, h2, key, ?_⟩
  intro hone a ha
  obtain ⟨i, hi⟩ := List.getElem?_of_mem ha
  have hlt := lt_of_getElem?_some hi
  have hi0 : i = 0 := by omega
  subst hi0
  obtain ⟨n, p, hn, hp, e1, e2⟩ := key 0 a hi
  rw [hone] at hn hp
  simp only [Nat.mod_one, zero_add, Nat.add_sub_cancel] at hn hp
  rw [hi] at hn hp
  cases hn; cases hp
  exact ⟨e1, e2⟩

/-- Witness of C1 on `pagedSite`. -/
theorem makeNode_prev_next_witness :
    ∃ st', makeNode quietEnv 2 pagedSite = .ok st'
      ∧ st'.nodeList = pagedSite.nodeList
      ∧ (∀ i a, pagedSite.nodeList[i]? = some a →
          ∃ n p, pagedSite.nodeList[(i + 1) % pagedSite.nodeList.length]? = some n
            ∧ pagedSite.nodeList[(i + pagedSite.nodeList.length - 1)
                % pagedSite.nodeList.length]? = some p
            ∧ (st'.heap a).Next = some n ∧ (st'.heap a).Prev = some p)
      ∧ (pagedSite.nodeList.length = 1 → ∀ a ∈ pagedSite.nodeList,
          (st'.heap a).Next = some a ∧ (st'.heap a).Prev = some a) :=
  makeNode_prev_next quietEnv 2 pagedSite ⟨fun _ => rfl, fun _ _ _ _ => rfl, fun _ _ => rfl⟩
    (by decide) (by decide) (by decide)

/-- C6: starting from an empty corpus, `makeNode` returns with exactly one search document
per element of the flat list, in list order: the `i`-th document has the `Link` of the `i`-th
node (the link left by `initNode`, which `makeNode` does not change) as `Location` and its
`Title` as `Title`. -/
theorem makeNode_search_docs (env : Env) (fuel : Nat) (st : Build) (hrel : env.reliable)
    (hr : ∀ a ∈ st.nodeList, rooted st.heap fuel a = true) (h0 : st.search = []) :
    ∃ st', makeNode env fuel st = .ok st'
      ∧ st'.search.length = st.nodeList.length
      ∧ ∀ (i a : Nat), st.nodeList[i]? = some a →
          ∃ d : SearchDoc, st'.search[i]? = some d
            ∧ d.Location = (st'.heap a).Link ∧ d.Title = (st'.heap a).Title
            ∧ (st'.heap a).Link = (st.heap a).Link := by
  obtain ⟨s, h1, _, h3, _, h5⟩ := makeNode_spec env hrel fuel st hr
  rw [h0, List.map_nil, List.nil_append] at h5
  refine ⟨s, h1, ?_, ?_⟩
  · simpa using congrArg List.length h5
  · intro i a hi
    have h6 := congrArg (fun l => l[i]?) h5
    simp only [List.getElem?_map, hi, Option.map_some'] at h6
    cases hd : s.search[i]? with
    | none => rw [hd] at h6; cases h6
    | some d =>
      rw [hd] at h6
      simp only [Option.map_some', Option.some.injEq, Prod.mk.injEq] at h6
      exact ⟨d, rfl, by rw [h6.1, bare_link (h3 a)], by rw [h6.2, bare_title (h3 a)],
        bare_link (h3 a)⟩

/-- Witness of C6 on `pagedSite`. -/
theorem makeNode_search_docs_witness :
    ∃ st', makeNode quietEnv 2 pagedSite = .ok st'
      ∧ st'.search.length = pagedSite.nodeList.length
      ∧ ∀ (i a : Nat), pagedSite.nodeList[i]? = some a →
          ∃ d : SearchDoc, st'.search[i]? = some d
            ∧ d.Location = (st'.heap a).Link ∧ d.Title = (st'.heap a).Title
            ∧ (st'.heap a).Link = (pagedSite.heap a).Link :=
  makeNode_search_docs quietEnv 2 pagedSite ⟨fun _ => rfl, fun _ _ _ _ => rfl, fun _ _ => rfl⟩
    (by decide) rfl

theorem succ_mod_pred (i N : Nat) (hi : i < N) : ((i + 1) % N + N - 1) % N = i := by
  have e : (i + 1) % N + N - 1 = (i + 1) % N + (N - 1) := by omega
  rw [e, Nat.mod_add_mod]
  have e2 : i + 1 + (N - 1) = i + N := by omega
  rw [e2, Nat.add_mod_right]
  exact Nat.mod_eq_of_lt hi

theorem pred_mod_succ (i N : Nat) (hi : i < N) : ((i + N - 1) % N + 1) % N = i := by
  rw [Nat.mod_add_mod]
  have e2 : i + N - 1 + 1 = i + N := by omega
  rw [e2, Nat.add_mod_right]
  exact Nat.mod_eq_of_lt hi

theorem add_mod_ne (i k N : Nat) (hi : i < N) (hk0 : 0 < k) (hk : k < N) :
    (i + k) % N ≠ i := by
  by_cases h : i + k < N
  · rw [Nat.mod_eq_of_lt h]; omega
  · rw [Nat.mod_eq_sub_mod (by omega), Nat.mod_eq_of_lt (by omega)]; omega

theorem follow_eq (heap : Nat → Node) (L : List Nat)
    (hnext : ∀ i a, L[i]? = some a → (heap a).Next = L[(i + 1) % L.length]?) :
    ∀ (k i a : Nat), L[i]? = some a → follow heap k a = L[(i + k) % L.length]?
  | 0, i, a, hi => by
    simp only [follow, Nat.add_zero]
    rw [Nat.mod_eq_of_lt (lt_of_getElem?_some hi), hi]
  | k + 1, i, a, hi => by
    have hlt := lt_of_getElem?_some hi
    obtain ⟨n, hn⟩ := getElem?_some_of_lt L _ (Nat.mod_lt (i + 1) (by omega))
    simp only [follow, hnext i a hi, hn]
    rw [follow_eq heap L hnext k _ n hn, Nat.mod_add_mod]
    congr 2
    omega

/-- C7: for a flat list of `N ≥ 1` distinct file-nodes, after `makeNode` the pointers form one
cycle: `Next.Prev` and `Prev.Next` of every listed node are the node itself, and following
`Next` from a listed node comes back to it after exactly `N` steps and not earlier. -/
theorem makeNode_single_cycle (env : Env) (fuel : Nat) (st : Build) (hrel : env.reliable)
    (hN : 1 ≤ st.nodeList.length) (hnd : st.nodeList.Nodup)
    (hr : ∀ a ∈ st.nodeList, rooted st.heap fuel a = true) :
    ∃ st', makeNode env fuel st = .ok st'
      ∧ ∀ (i a : Nat), st.nodeList[i]? = some a →
          (∃ n, (st'.heap a).Next = some n ∧ (st'.heap n).Prev = some a)
          ∧ (∃ p, (st'.heap a).Prev = some p ∧ (st'.heap p).Next = some a)
          ∧ follow st'.heap st.nodeList.length a = some a
          ∧ ∀ k, 0 < k → k < st.nodeList.length → follow st'.heap k a ≠ some a := by
  obtain ⟨s, h1, _, _, h4, _⟩ := makeNode_spec env hrel fuel st hr
  have hpos : 0 < st.nodeList.length := hN
  refine ⟨s, h1, ?_⟩
  intro i a hi
  have hlt := lt_of_getElem?_some hi
  obtain ⟨n, hn⟩ := getElem?_some_of_lt st.nodeList _ (Nat.mod_lt (i + 1) hpos)
  obtain ⟨p, hp⟩ := getElem?_some_of_lt st.nodeList _
    (Nat.mod_lt (i + st.nodeList.length - 1) hpos)
  obtain ⟨e1, e2⟩ := h4 hnd i a hi
  have hnext : ∀ j b, st.nodeList[j]? = some b →
      (s.heap b).Next = st.nodeList[(j + 1) % st.nodeList.length]? :=
    fun j b hj => (h4 hnd j b hj).2
  refine ⟨⟨n, e2.trans hn, ?_⟩, ⟨p, e1.trans hp, ?_⟩, ?_, ?_⟩
  · rw [(h4 hnd _ n hn).1, succ_mod_pred i _ hlt, hi]
  · rw [(h4 hnd _ p hp).2, pred_mod_succ i _ hlt, hi]
  · rw [follow_eq s.heap st.nodeList hnext _ i a hi, Nat.add_mod_right,
      Nat.mod_eq_of_lt hlt, hi]
  · intro k hk0 hk
    rw [follow_eq s.heap st.nodeList hnext k i a hi]
    intro hc
    have hlt2 : (i + k) % st.nodeList.length < st.nodeList.length := Nat.mod_lt _ hpos
    have := List.getElem?_inj hlt2 hnd (hc.trans hi.symm)
    exact add_mod_ne i k _ hlt hk0 hk this

/-- Witness of C7 on `pagedSite`. -/
theorem makeNode_single_cycle_witness :
    ∃ st', makeNode quietEnv 2 pagedSite = .ok st'
      ∧ ∀ (i a : Nat), pagedSite.nodeList[i]? = some a →
          (∃ n, (st'.heap a).Next = some n ∧ (st'.heap n).Prev = some a)
          ∧ (∃ p, (st'.heap a).Prev = some p ∧ (st'.heap p).Next = some a)
          ∧ follow st'.heap pagedSite.nodeList.length a = some a
          ∧ ∀ k, 0 < k → k < pagedSite.nodeList.length → follow st'.heap k a ≠ some a :=
  makeNode_single_cycle quietEnv 2 pagedSite
    ⟨fun _ => rfl, fun _ _ _ _ => rfl, fun _ _ => rfl⟩ (by decide) (by decide) (by decide)

theorem makeNodeLoop_append (env : Env) (fuel : Nat) (max : Int) :
    ∀ (xs ys : List Nat) (i : Nat) (st : Build),
      makeNodeLoop env fuel max i (xs ++ ys) st
        = match makeNodeLoop env fuel max i xs st with
          | .error e => .error e
          | .ok s => makeNodeLoop env fuel max (i + xs.length) ys s
  | [], ys, i, st => by simp [makeNodeLoop]
  | x :: xs, ys, i, st => by
    simp only [List.cons_append, makeNodeLoop, List.length_cons]
    cases enter fuel max st i x with
    | error e => rfl
    | ok s1 =>
      simp only []
      cases makeBody env s1 x with
      | error e => rfl
      | ok s2 =>
        simp only []
        cases leave fuel s2 x with
        | error e => rfl
        | ok s3 =>
          simp only []
          have e : i + 1 + xs.length = i + (xs.length + 1) := by omega
          rw [← e]
          exact makeNodeLoop_append env fuel max xs ys (i + 1) s3

theorem makeNodeLoop_split (env : Env) (fuel : Nat) (max : Int) (pre post : List Nat)
    (node : Nat) (st : Build) :
    makeNodeLoop env fuel max 0 (pre ++ node :: post) st
      = match (match makeNodeLoop env fuel max 0 pre st with
          | .error e => .error e
          | .ok s => enter fuel max s pre.length node : Except Fault Build) with
        | .error e => .error e
        | .ok s =>
          match makeBody env s node with
          | .error e => .error e
          | .ok s =>
            match leave fuel s node with
            | .error e => .error e
            | .ok s => makeNodeLoop env fuel max (pre.length + 1) post s := by
  rw [makeNodeLoop_append]
  cases makeNodeLoop env fuel max 0 pre st with
  | error e => rfl
  | ok s =>
    simp only [makeNodeLoop, Nat.zero_add]

theorem makeNode_eq_atMakeBody (env : Env) (fuel : Nat) (st : Build) (i node : Nat)
    (hi : st.nodeList[i]? = some node) :
    makeNode env fuel st
      = match atMakeBody env fuel st i with
        | .error e => .error e
        | .ok s =>
          match makeBody env s node with
          | .error e => .error e
          | .ok s =>
            match leave fuel s node with
            | .error e => .error e
            | .ok s =>
              makeNodeLoop env fuel ((st.nodeList.length : Int) - 1) (i + 1)
                (st.nodeList.drop (i + 1)) s := by
  have hlt := lt_of_getElem?_some hi
  have hsplit : st.nodeList.take i ++ node :: st.nodeList.drop (i + 1) = st.nodeList := by
    have h1 : st.nodeList.drop i = node :: st.nodeList.drop (i + 1) := by
      rw [List.drop_eq_getElem_cons hlt]
      congr 1
      have := List.getElem?_eq_getElem hlt
      rw [hi] at this
      exact (Option.some.inj this).symm
    rw [← h1, List.take_append_drop]
  have hlen : (st.nodeList.take i).length = i := by
    rw [List.length_take]; omega
  have := makeNodeLoop_split env fuel ((st.nodeList.length : Int) - 1) (st.nodeList.take i)
    (st.nodeList.drop (i + 1)) node st
  rw [hsplit, hlen] at this
  unfold makeNode atMakeBody
  simp only [hi]
  exact this

theorem index_lt_of_mem_take (L : List Nat) (hnd : L.Nodup) (i j a : Nat)
    (hj : L[j]? = some a) (hm : a ∈ L.take i) : j < i := by
  obtain ⟨k, hk⟩ := List.getElem?_of_mem hm
  have hk2 := lt_of_getElem?_some hk
  rw [List.length_take] at hk2
  rw [List.getElem?_take, if_pos (by omega)] at hk
  have hkL : k < L.length := by omega
  have := List.getElem?_inj hkL hnd (hk.trans hj.symm)
  omega

/-- C8 (as the code behaves): `makeNode` paginates and renders in one loop. When `makeBody` is
called for the node at index `i` of a flat list of distinct file-nodes, the nodes at the
indices `j ≤ i` (the rendered node and the nodes rendered before it) have `Prev` and `Next`
assigned as in C1, and the nodes at the indices `j > i` still have the `Prev` and `Next` they
had before `makeNode`. -/
theorem atMakeBody_pagination_so_far (env : Env) (fuel : Nat) (st : Build) (i : Nat)
    (hrel : env.reliable) (hi : i < st.nodeList.length) (hnd : st.nodeList.Nodup)
    (hr : ∀ a ∈ st.nodeList, rooted st.heap fuel a = true) :
    ∃ s, atMakeBody env fuel st i = .ok s
      ∧ (∀ (j a : Nat), j ≤ i → st.nodeList[j]? = some a →
          ∃ n p, st.nodeList[(j + 1) % st.nodeList.length]? = some n
            ∧ st.nodeList[(j + st.nodeList.length - 1) % st.nodeList.length]? = some p
            ∧ (s.heap a).Next = some n ∧ (s.heap a).Prev = some p)
      ∧ ∀ (j a : Nat), i < j → st.nodeList[j]? = some a →
          (s.heap a).Prev = (st.heap a).Prev ∧ (s.heap a).Next = (st.heap a).Next := by
  have hpos : 0 < st.nodeList.length := by omega
  obtain ⟨node, hnode⟩ := getElem?_some_of_lt st.nodeList i hi
  have hsplit : st.nodeList = [] ++ st.nodeList.take i ++ st.nodeList.drop i := by simp
  obtain ⟨s1, h1, hl1, hb1, ho1, hk1, _⟩ :=
    makeNodeLoop_spec env hrel fuel st.nodeList (st.nodeList.take i) [] (st.nodeList.drop i)
      st hsplit rfl hr
  have hnode1 : s1.nodeList[i]? = some node := by rw [hl1]; exact hnode
  have hr1 : rooted s1.heap fuel node = true := by
    rw [rooted_of_bare _ _ hb1 fuel node]
    exact hr node (List.getElem?_mem hnode)
  obtain ⟨s, he, _, _, _, ho2, hp2, hn2⟩ := enter_spec fuel s1 i node hnode1 hr1
  rw [hl1] at he hp2 hn2
  refine ⟨s, ?_, ?_, ?_⟩
  · unfold atMakeBody
    simp only [List.length_nil] at h1
    simp only [h1, hnode, he]
  · intro j a hj hja
    obtain ⟨n, hn⟩ := getElem?_some_of_lt st.nodeList _ (Nat.mod_lt (j + 1) hpos)
    obtain ⟨p, hp⟩ := getElem?_some_of_lt st.nodeList _
      (Nat.mod_lt (j + st.nodeList.length - 1) hpos)
    refine ⟨n, p, hn, hp, ?_, ?_⟩
    · by_cases hji : j = i
      · subst hji
        rw [hnode] at hja; cases hja
        rw [hn2, hn]
      · have hne : a ≠ node := by
          intro hc
          subst hc
          exact hji (List.getElem?_inj (lt_of_getElem?_some hja) hnd (hja.trans hnode.symm))
        rw [(ho2 a hne).2, ← hn]
        exact (hk1 hnd j a (by simp) (by simp [List.length_take]; omega) hja).2
    · by_cases hji : j = i
      · subst hji
        rw [hnode] at hja; cases hja
        rw [hp2, hp]
      · have hne : a ≠ node := by
          intro hc
          subst hc
          exact hji (List.getElem?_inj (lt_of_getElem?_some hja) hnd (hja.trans hnode.symm))
        rw [(ho2 a hne).1, ← hp]
        exact (hk1 hnd j a (by simp) (by simp [List.length_take]; omega) hja).1
  · intro j a hj hja
    have hne : a ≠ node := by
      intro hc
      subst hc
      have := List.getElem?_inj (lt_of_getElem?_some hja) hnd (hja.trans hnode.symm)
      omega
    have hnot : a ∉ st.nodeList.take i := by
      intro hm
      have := index_lt_of_mem_take st.nodeList hnd i j a hja hm
      omega
    obtain ⟨e1, e2⟩ := ho2 a hne
    obtain ⟨e3, e4⟩ := ho1 a hnot
    exact ⟨e1.trans e3, e2.trans e4⟩

/-- Witness of C8 on `pagedSite`, at the call of `makeBody` for the first node. -/
theorem atMakeBody_pagination_so_far_witness :
    ∃ s, atMakeBody quietEnv 2 pagedSite 0 = .ok s
      ∧ (∀ (j a : Nat), j ≤ 0 → pagedSite.nodeList[j]? = some a →
          ∃ n p, pagedSite.nodeList[(j + 1) % pagedSite.nodeList.length]? = some n
            ∧ pagedSite.nodeList[(j + pagedSite.nodeList.length - 1)
                % pagedSite.nodeList.length]? = some p
            ∧ (s.heap a).Next = some n ∧ (s.heap a).Prev = some p)
      ∧ ∀ (j a : Nat), 0 < j → pagedSite.nodeList[j]? = some a →
          (s.heap a).Prev = (pagedSite.heap a).Prev ∧ (s.heap a).Next = (pagedSite.heap a).Next :=
  atMakeBody_pagination_so_far quietEnv 2 pagedSite 0
    ⟨fun _ => rfl, fun _ _ _ _ => rfl, fun _ _ => rfl⟩ (by decide) (by decide) (by decide)

/-- C8 as stated fails: when `makeBody` is called for the first node of `pagedSite` (address
1), its `Next` is the node at address 2, whose `Prev` and `Next` are still nil: the rendered
node's `Next.Prev` is not the node itself. -/
theorem atMakeBody_next_not_paginated :
    (atMakeBody quietEnv 2 pagedSite 0).toOption.map
        (fun s => ((s.heap 1).Next, (s.heap 2).Prev, (s.heap 2).Next))
      = some (some 2, none, none) := by
  decide

/-! ## `parseToc`: the indexed text -/

theorem replaceAll_nn (rest : List Char) :
    replaceAll ['\n', '\n'] [] 0 ('\n' :: '\n' :: rest) = replaceAll ['\n', '\n'] [] 0 rest := by
  simp [replaceAll, List.isPrefixOf]

theorem replaceAll_n_other (c : Char) (rest : List Char) (hc : c ≠ '\n') :
    replaceAll ['\n', '\n'] [] 0 ('\n' :: c :: rest)
      = '\n' :: replaceAll ['\n', '\n'] [] 0 (c :: rest) := by
  have : ('\n' == c) = false := by simpa using fun h => hc h.symm
  simp [replaceAll, List.isPrefixOf, this]

theorem replaceAll_n_end : replaceAll ['\n', '\n'] [] 0 ['\n'] = ['\n'] := by
  simp [replaceAll, List.isPrefixOf]

theorem replaceAll_other (c : Char) (rest : List Char) (hc : c ≠ '\n') :
    replaceAll ['\n', '\n'] [] 0 (c :: rest) = c :: replaceAll ['\n', '\n'] [] 0 rest := by
  have : ('\n' == c) = false := by simpa using fun h => hc h.symm
  simp [replaceAll, List.isPrefixOf, this]

theorem replaceAll_props : ∀ s : List Char,
    List.Chain' (fun a b => ¬ (a = '\n' ∧ b = '\n')) (replaceAll ['\n', '\n'] [] 0 s)
      ∧ (replaceAll ['\n', '\n'] [] 0 s).filter (fun c => c != '\n')
          = s.filter (fun c => c != '\n')
  | [] => by simp [replaceAll]
  | [c] => by
    by_cases hc : c = '\n'
    · subst hc; rw [replaceAll_n_end]; simp
    · rw [replaceAll_other c [] hc]; simp [replaceAll]
  | c :: d :: rest => by
    by_cases hc : c = '\n'
    · subst hc
      by_cases hd : d = '\n'
      · subst hd
        rw [replaceAll_nn]
        obtain ⟨h1, h2⟩ := replaceAll_props rest
        exact ⟨h1, by simpa using h2⟩
      · rw [replaceAll_n_other d rest hd]
        obtain ⟨h1, h2⟩ := replaceAll_props (d :: rest)
        rw [replaceAll_other d rest hd] at h1 h2
        refine ⟨?_, ?_⟩
        · rw [replaceAll_other d rest hd]
          exact List.Chain'.cons (by simp [hd]) h1
        · rw [replaceAll_other d rest hd]
          simpa using h2
    · rw [replaceAll_other c _ hc]
      obtain ⟨h1, h2⟩ := replaceAll_props (d :: rest)
      refine ⟨?_, ?_⟩
      · rw [List.chain'_cons']
        exact ⟨fun y _ => by simp [hc], h1⟩
      · simp only [List.filter_cons, h2]

theorem replaceAll_run : ∀ (k : Nat) (post : List Char), post.head? ≠ some '\n' →
    replaceAll ['\n', '\n'] [] 0 (List.replicate k '\n' ++ post)
      = List.replicate (k % 2) '\n' ++ replaceAll ['\n', '\n'] [] 0 post
  | 0, post, _ => by simp
  | 1, post, hp => by
    cases post with
    | nil => simp [replaceAll_n_end, replaceAll]
    | cons c rest =>
      have hc : c ≠ '\n' := by simpa using hp
      simp [List.replicate, replaceAll_n_other c rest hc]
  | k + 2, post, hp => by
    have e : List.replicate (k + 2) '\n' ++ post
        = '\n' :: '\n' :: (List.replicate k '\n' ++ post) := by
      simp [List.replicate]
    rw [e, replaceAll_nn, replaceAll_run k post hp, Nat.add_mod_right]

theorem replaceAll_append : ∀ (pre rest : List Char), pre.getLast? ≠ some '\n' →
    replaceAll ['\n', '\n'] [] 0 (pre ++ rest)
      = replaceAll ['\n', '\n'] [] 0 pre ++ replaceAll ['\n', '\n'] [] 0 rest
  | [], rest, _ => by simp [replaceAll]
  | [c], rest, hp => by
    have hc : c ≠ '\n' := by simpa using hp
    rw [List.singleton_append, replaceAll_other c _ hc, replaceAll_other c _ hc]
    simp [replaceAll]
  | c :: d :: pre, rest, hp => by
    have hp2 : (d :: pre).getLast? ≠ some '\n' := by
      simpa [List.getLast?_cons_cons] using hp
    by_cases hc : c = '\n'
    · subst hc
      by_cases hd : d = '\n'
      · subst hd
        have hp3 : pre.getLast? ≠ some '\n' := by
          cases pre with
          | nil => simp
          | cons x xs => simpa [List.getLast?_cons_cons] using hp2
        simp only [List.cons_append, replaceAll_nn]
        exact replaceAll_append pre rest hp3
      · simp only [List.cons_append, replaceAll_n_other d _ hd]
        have := replaceAll_append (d :: pre) rest hp2
        simp only [List.cons_append] at this
        rw [this]
    · simp only [List.cons_append, replaceAll_other c _ hc]
      have := replaceAll_append (d :: pre) rest hp2
      simp only [List.cons_append] at this
      rw [this]

/-- Deleting every left-to-right non-overlapping occurrence of two newlines leaves no two
consecutive newlines, keeps the other characters in order, and reduces a maximal run of `k`
newlines to `k mod 2` newlines. -/
theorem indexedText_newlines (text : String) :
    ¬ ['\n', '\n'] <:+: (indexedText text).data
      ∧ (indexedText text).data.filter (fun c => c != '\n')
          = text.data.filter (fun c => c != '\n')
      ∧ ∀ (pre post : List Char) (k : Nat),
          text.data = pre ++ List.replicate k '\n' ++ post →
          pre.getLast? ≠ some '\n' → post.head? ≠ some '\n' →
          (indexedText text).data
            = (indexedText (String.mk pre)).data ++ List.replicate (k % 2) '\n'
              ++ (indexedText (String.mk post)).data := by
  obtain ⟨h1, h2⟩ := replaceAll_props text.data
  refine ⟨?_, h2, ?_⟩
  · intro hin
    have := h1.infix hin
    simp at this
  · intro pre post k htext hpre hpost
    show replaceAll ['\n', '\n'] [] 0 text.data = _
    rw [htext, List.append_assoc, replaceAll_append pre _ hpre, replaceAll_run k post hpost,
      List.append_assoc]
    rfl

/-! ## `parseToc`: the table of contents -/

mutual
theorem matchAll_of_no_nav (sel : List String) (hsel : "nav" ∈ sel.tail) :
    ∀ (n : HNode) (anc : List String), "nav" ∉ anc → n.hasTag "nav" = false →
      n.matchAll sel anc = []
  | .text _, _, _, _ => rfl
  | .elem tag attr kids, anc, hanc, hn => by
    simp only [HNode.hasTag, Bool.or_eq_false_iff, beq_eq_false_iff_ne, ne_eq] at hn
    have hm : selMatches sel anc tag = false := by
      cases sel with
      | nil => rfl
      | cons t up =>
        simp only [selMatches, Bool.and_eq_false_iff]
        right
        by_contra hpre
        simp only [Bool.not_eq_false] at hpre
        have := List.isPrefixOf_iff_prefix.1 hpre
        exact hanc (this.subset hsel)
    simp only [HNode.matchAll, hm, Bool.false_eq_true, if_false, List.nil_append]
    apply matchAllList_of_no_nav sel hsel kids (tag :: anc) _ hn.2
    simp only [List.mem_cons, not_or]
    exact ⟨fun h => hn.1 h.symm, hanc⟩
theorem matchAllList_of_no_nav (sel : List String) (hsel : "nav" ∈ sel.tail) :
    ∀ (ns : List HNode) (anc : List String), "nav" ∉ anc → HNode.hasTagList "nav" ns = false →
      HNode.matchAllList sel anc ns = []
  | [], _, _, _ => rfl
  | n :: ns, anc, hanc, hn => by
    simp only [HNode.hasTagList, Bool.or_eq_false_iff] at hn
    simp only [HNode.matchAllList, matchAll_of_no_nav sel hsel n anc hanc hn.1,
      matchAllList_of_no_nav sel hsel ns anc hanc hn.2, List.append_nil]
end

mutual
theorem matchAll_unreachable (sel : List String) :
    ∀ (n : HNode) (anc : List String),
      (∀ p : List String, "nav" ∉ p → ¬ sel.tail <+: p ++ anc) → n.hasTag "nav" = false →
      n.matchAll sel anc = []
  | .text _, _, _, _ => rfl
  | .elem tag attr kids, anc, hanc, hn => by
    simp only [HNode.hasTag, Bool.or_eq_false_iff, beq_eq_false_iff_ne, ne_eq] at hn
    have hm : selMatches sel anc tag = false := by
      cases sel with
      | nil => rfl
      | cons t up =>
        simp only [selMatches, Bool.and_eq_false_iff]
        right
        by_contra hpre
        simp only [Bool.not_eq_false] at hpre
        exact hanc [] (by simp) (by simpa using List.isPrefixOf_iff_prefix.1 hpre)
    simp only [HNode.matchAll, hm, Bool.false_eq_true, if_false, List.nil_append]
    apply matchAllList_unreachable sel kids (tag :: anc) _ hn.2
    intro p hp hpre
    apply hanc (p ++ [tag])
    · simp only [List.mem_append, List.mem_singleton, not_or]
      exact ⟨hp, fun h => hn.1 h.symm⟩
    · simpa using hpre
theorem matchAllList_unreachable (sel : List String) :
    ∀ (ns : List HNode) (anc : List String),
      (∀ p : List String, "nav" ∉ p → ¬ sel.tail <+: p ++ anc) →
      HNode.hasTagList "nav" ns = false → HNode.matchAllList sel anc ns = []
  | [], _, _, _ => rfl
  | n :: ns, anc, hanc, hn => by
    simp only [HNode.hasTagList, Bool.or_eq_false_iff] at hn
    simp only [HNode.matchAllList, matchAll_unreachable sel n anc hanc hn.1,
      matchAllList_unreachable sel ns anc hanc hn.2, List.append_nil]
end

theorem unreachable_of_blocker (up : List String) (b : String) (anc : List String)
    (hnav : "nav" ∈ up) (hb : b ∉ up) (hbn : b ≠ "nav") :
    ∀ p : List String, "nav" ∉ p → ¬ up <+: p ++ b :: anc := by
  intro p hp hpre
  have h2 : p ++ [b] <+: p ++ b :: anc := by
    simp
  rcases List.prefix_or_prefix_of_prefix hpre h2 with h | h
  · have := h.subset hnav
    simp only [List.mem_append, List.mem_singleton] at this
    rcases this with h1 | h1
    · exact hp h1
    · exact hbn h1.symm
  · exact hb (h.subset (by simp))

theorem unreachable_of_deep (up q anc : List String)
    (hnav : "nav" ∈ up) (hq : "nav" ∉ q) (hlen : up.length ≤ q.length) :
    ∀ p : List String, "nav" ∉ p → ¬ up <+: p ++ (q ++ anc) := by
  intro p hp hpre
  have h2 : p ++ q <+: p ++ (q ++ anc) := by
    rw [← List.append_assoc]; exact List.prefix_append _ _
  have h3 := List.prefix_of_prefix_length_le hpre h2 (by simp; omega)
  have := h3.subset hnav
  simp only [List.mem_append] at this
  rcases this with h1 | h1
  · exact hp h1
  · exact hq h1

theorem matchAllList_elements (sel anc : List String) :
    ∀ ns : List HNode,
      HNode.matchAllList sel anc ns = HNode.matchAllList sel anc (elements ns)
  | [] => rfl
  | .text _ :: ns => by
    rw [elements]
    simp only [HNode.matchAllList, HNode.matchAll, List.nil_append]
    exact matchAllList_elements sel anc ns
  | .elem tag attr kids :: ns => by
    rw [elements]
    simp only [HNode.matchAllList]
    rw [matchAllList_elements sel anc ns]

/-- The three selectors of `parseToc`. -/
theorem sel_cases (sel : List String) (h : sel = selLi ∨ sel = selA ∨ sel = selSubA) :
    "nav" ∈ sel.tail ∧ "a" ∉ sel.tail ∧ sel.tail.length ≤ 5 := by
  rcases h with h | h | h <;> subst h <;> simp [selLi, selA, selSubA]

theorem isAnchor_elim (t : String × String) (n : HNode) (h : isAnchor t n = true) :
    ∃ attr body, n = .elem "a" attr body ∧ attr.lookup "href" = some t.2
      ∧ HNode.textOfList body = t.1 ∧ HNode.hasTagList "nav" body = false := by
  cases n with
  | text d => simp [isAnchor] at h
  | elem tag attr body =>
    simp only [isAnchor, Bool.and_eq_true, beq_iff_eq, Bool.not_eq_true'] at h
    obtain ⟨⟨⟨h1, h2⟩, h3⟩, h4⟩ := h
    subst h1
    exact ⟨attr, body, rfl, h2, h3, h4⟩

theorem anchor_matchAll (sel : List String) (hsel : sel = selLi ∨ sel = selA ∨ sel = selSubA)
    (t : String × String) (a : HNode) (anc : List String) (h : isAnchor t a = true) :
    a.matchAll sel anc = if selMatches sel anc "a" then [(anc, a)] else [] := by
  obtain ⟨attr, body, rfl, -, -, hb⟩ := isAnchor_elim t a h
  obtain ⟨hnav, ha, -⟩ := sel_cases sel hsel
  simp only [HNode.matchAll]
  rw [matchAllList_unreachable sel body ("a" :: anc)
    (unreachable_of_blocker _ "a" anc hnav ha (by decide)) hb, List.append_nil]

theorem text_anchor (anc : List String) (t : String × String) (a : HNode)
    (h : isAnchor t a = true) : Text [(anc, a)] = t.1 := by
  obtain ⟨attr, body, rfl, -, h3, -⟩ := isAnchor_elim t a h
  simp [Text, HNode.textOf, h3]

theorem attr_anchor (anc : List String) (t : String × String) (a : HNode)
    (h : isAnchor t a = true) : Attr [(anc, a)] "href" = (t.2, true) := by
  obtain ⟨attr, body, rfl, h2, -, -⟩ := isAnchor_elim t a h
  simp [Attr, h2]

theorem tocSub_anchor (has : Bool) (acc : List Toc × List Toc) (anc : List String)
    (t : String × String) (a : HNode) (h : isAnchor t a = true) :
    tocSub has acc (anc, a)
      = if has then (acc.1 ++ [tocLeaf t], acc.2) else (acc.1, acc.2 ++ [tocLeaf t]) := by
  simp only [tocSub, text_anchor anc t a h, attr_anchor anc t a h, tocLeaf]

theorem inert_matchAll (sel : List String) (hsel : sel = selLi ∨ sel = selA ∨ sel = selSubA)
    (x : String) (hx : x ≠ "nav") (ctx : List String) (n : HNode) (h : isInert n = true) :
    n.matchAll sel (x :: "ul" :: "li" :: "ul" :: "nav" :: ctx) = [] := by
  cases n with
  | text d => rfl
  | elem tag attr kids =>
    simp only [isInert, HNode.hasTag, Bool.and_eq_true, bne_iff_ne, ne_eq, Bool.not_eq_true',
      Bool.or_eq_false_iff, beq_eq_false_iff_ne] at h
    obtain ⟨hnav, -, hlen⟩ := sel_cases sel hsel
    have hm : selMatches sel (x :: "ul" :: "li" :: "ul" :: "nav" :: ctx) tag = false := by
      rcases hsel with e | e | e <;> subst e <;>
        simp [selMatches, selLi, selA, selSubA, List.isPrefixOf, Ne.symm h.1]
    simp only [HNode.matchAll, hm, Bool.false_eq_true, if_false, List.nil_append]
    apply matchAllList_unreachable sel kids _ _ h.2.2
    have := unreachable_of_deep sel.tail [tag, x, "ul", "li", "ul"] ("nav" :: ctx) hnav
      (by simp [h.2.1, hx]; exact ⟨fun e => h.2.1 e.symm, fun e => hx e.symm⟩)
      (by simpa using hlen)
    simpa using this

theorem inert_matchAllList (sel : List String)
    (hsel : sel = selLi ∨ sel = selA ∨ sel = selSubA) (x : String) (hx : x ≠ "nav")
    (ctx : List String) :
    ∀ ns : List HNode, ns.all isInert = true →
      HNode.matchAllList sel (x :: "ul" :: "li" :: "ul" :: "nav" :: ctx) ns = []
  | [], _ => rfl
  | n :: ns, h => by
    simp only [List.all_cons, Bool.and_eq_true] at h
    simp only [HNode.matchAllList, inert_matchAll sel hsel x hx ctx n h.1,
      inert_matchAllList sel hsel x hx ctx ns h.2, List.append_nil]

theorem blank_matchAll (sel : List String) (hsel : sel = selLi ∨ sel = selA ∨ sel = selSubA)
    (ctx : List String) (s : HNode) (h : isBlank s = true) :
    s.matchAll sel ("ul" :: "li" :: "ul" :: "nav" :: ctx) = [] := by
  cases s with
  | text d => rfl
  | elem tag attr kids =>
    simp only [isBlank, Bool.and_eq_true, bne_iff_ne, ne_eq] at h
    have hm : selMatches sel ("ul" :: "li" :: "ul" :: "nav" :: ctx) tag = false := by
      rcases hsel with e | e | e <;> subst e <;>
        simp [selMatches, selLi, selA, selSubA, List.isPrefixOf]
    simp only [HNode.matchAll, hm, Bool.false_eq_true, if_false, List.nil_append]
    exact inert_matchAllList sel hsel tag h.1 ctx kids h.2

theorem isSubItem_elim (t : String × String) (s : HNode) (h : isSubItem t s = true) :
    ∃ attr kids a more, s = .elem "li" attr kids ∧ elements kids = a :: more
      ∧ isAnchor t a = true ∧ more.all isInert = true := by
  cases s with
  | text d => simp [isSubItem] at h
  | elem tag attr kids =>
    simp only [isSubItem, Bool.and_eq_true, beq_iff_eq] at h
    obtain ⟨h1, h2⟩ := h
    subst h1
    cases he : elements kids with
    | nil => rw [he] at h2; simp at h2
    | cons a more =>
      rw [he] at h2
      simp only [Bool.and_eq_true] at h2
      exact ⟨attr, kids, a, more, rfl, he, h2.1, h2.2⟩

theorem subItem_matchAll (sel : List String) (hsel : sel = selLi ∨ sel = selA ∨ sel = selSubA)
    (ctx : List String) (t : String × String) (s : HNode) (h : isSubItem t s = true) :
    ∃ a, isAnchor t a = true
      ∧ s.matchAll sel ("ul" :: "li" :: "ul" :: "nav" :: ctx)
        = if sel = selSubA then [("li" :: "ul" :: "li" :: "ul" :: "nav" :: ctx, a)] else [] := by
  obtain ⟨attr, kids, a, more, rfl, he, ha, hm⟩ := isSubItem_elim t s h
  refine ⟨a, ha, ?_⟩
  simp only [HNode.matchAll]
  rw [matchAllList_elements, he]
  simp only [HNode.matchAllList, anchor_matchAll sel hsel t a _ ha,
    inert_matchAllList sel hsel "li" (by decide) ctx more hm, List.append_nil]
  rcases hsel with e | e | e <;> subst e <;>
    simp [selMatches, selLi, selA, selSubA, List.isPrefixOf]

theorem subItems_matchAll (sel : List String) (hsel : sel = selLi ∨ sel = selA)
    (ctx : List String) :
    ∀ (es : List HNode) (ts : List (String × String)), isSubItems ts es = true →
      HNode.matchAllList sel ("ul" :: "li" :: "ul" :: "nav" :: ctx) es = []
  | [], _, _ => rfl
  | s :: es, ts, h => by
    have hsel3 : sel = selLi ∨ sel = selA ∨ sel = selSubA := by tauto
    simp only [isSubItems, Bool.or_eq_true, Bool.and_eq_true] at h
    rcases h with h | h
    · match ts, h with
      | [], h => simp at h
      | t :: rest, h =>
        simp only [Bool.and_eq_true] at h
        obtain ⟨a, -, hs⟩ := subItem_matchAll sel hsel3 ctx t s h.1
        have hne : sel ≠ selSubA := by
          rcases hsel with e | e <;> subst e <;> decide
        rw [if_neg hne] at hs
        simp only [HNode.matchAllList, hs, subItems_matchAll sel hsel ctx es rest h.2,
          List.append_nil]
    · simp only [HNode.matchAllList, blank_matchAll sel hsel3 ctx s h.1,
        subItems_matchAll sel hsel ctx es ts h.2, List.append_nil]

theorem subItems_tocSub (has : Bool) (ctx : List String) :
    ∀ (es : List HNode) (ts : List (String × String)), isSubItems ts es = true →
      ∀ acc : List Toc × List Toc,
        (HNode.matchAllList selSubA ("ul" :: "li" :: "ul" :: "nav" :: ctx) es).foldl
            (tocSub has) acc
          = if has then (acc.1 ++ ts.map tocLeaf, acc.2)
            else (acc.1, acc.2 ++ ts.map tocLeaf)
  | [], ts, h, acc => by
    simp only [isSubItems, List.isEmpty_iff] at h
    subst h
    cases has <;> simp [HNode.matchAllList]
  | s :: es, ts, h, acc => by
    simp only [isSubItems, Bool.or_eq_true, Bool.and_eq_true] at h
    rcases h with h | h
    · match ts, h with
      | [], h => simp at h
      | t :: rest, h =>
        simp only [Bool.and_eq_true] at h
        obtain ⟨a, ha, hs⟩ := subItem_matchAll selSubA (Or.inr (Or.inr rfl)) ctx t s h.1
        rw [if_pos rfl] at hs
        simp only [HNode.matchAllList, hs, List.singleton_append, List.foldl_cons,
          tocSub_anchor has acc _ t a ha, subItems_tocSub has ctx es rest h.2]
        cases has <;> simp
    · simp only [HNode.matchAllList, blank_matchAll selSubA (Or.inr (Or.inr rfl)) ctx s h.1,
        List.nil_append]
      exact subItems_tocSub has ctx es ts h.2 acc

theorem isSubList_elim (ts : List (String × String)) (ul : HNode)
    (h : isSubList ts ul = true) :
    ∃ attr kids, ul = .elem "ul" attr kids ∧ isSubItems ts (elements kids) = true := by
  cases ul with
  | text d => simp [isSubList] at h
  | elem tag attr kids =>
    simp only [isSubList, Bool.and_eq_true, beq_iff_eq] at h
    obtain ⟨h1, h2⟩ := h
    subst h1
    exact ⟨attr, kids, rfl, h2⟩

theorem nested_matchAll (sel : List String) (hsel : sel = selLi ∨ sel = selA)
    (ctx : List String) (ts : List (String × String)) (more : List HNode)
    (h : isNested ts more = true) :
    HNode.matchAllList sel ("li" :: "ul" :: "nav" :: ctx) more = [] := by
  match more, h with
  | [], _ => rfl
  | [ul], h =>
    obtain ⟨attr, kids, rfl, hk⟩ := isSubList_elim ts ul h
    simp only [HNode.matchAllList, HNode.matchAll, List.append_nil]
    rw [matchAllList_elements, subItems_matchAll sel hsel ctx _ ts hk, List.append_nil]
    rcases hsel with e | e <;> subst e <;> simp [selMatches, selLi, selA]
  | _ :: _ :: _, h => simp [isNested] at h

theorem nested_tocSub (has : Bool) (ctx : List String) (ts : List (String × String))
    (more : List HNode) (h : isNested ts more = true) (acc : List Toc × List Toc) :
    (HNode.matchAllList selSubA ("li" :: "ul" :: "nav" :: ctx) more).foldl (tocSub has) acc
      = if has then (acc.1 ++ ts.map tocLeaf, acc.2)
        else (acc.1, acc.2 ++ ts.map tocLeaf) := by
  match more, h with
  | [], h =>
    simp only [isNested, List.isEmpty_iff] at h
    subst h
    cases has <;> simp [HNode.matchAllList]
  | [ul], h =>
    obtain ⟨attr, kids, rfl, hk⟩ := isSubList_elim ts ul h
    have hm : selMatches selSubA ("li" :: "ul" :: "nav" :: ctx) "ul" = false := by
      simp [selMatches, selSubA]
    simp only [HNode.matchAllList, HNode.matchAll, List.append_nil, hm, Bool.false_eq_true,
      if_false, List.nil_append]
    rw [matchAllList_elements]
    exact subItems_tocSub has ctx _ ts hk acc
  | _ :: _ :: _, h => simp [isNested] at h

theorem isItem_elim (it : NavItem) (li : HNode) (h : isItem it li = true) :
    ∃ attr kids, li = .elem "li" attr kids
      ∧ ((∃ t a more, it.anchor = some t ∧ elements kids = a :: more ∧ isAnchor t a = true
            ∧ isNested it.nested more = true)
          ∨ (it.anchor = none ∧ isNested it.nested (elements kids) = true)) := by
  cases li with
  | text d => simp [isItem] at h
  | elem tag attr kids =>
    simp only [isItem, Bool.and_eq_true, beq_iff_eq] at h
    obtain ⟨h1, h2⟩ := h
    subst h1
    refine ⟨attr, kids, rfl, ?_⟩
    cases ha : it.anchor with
    | none =>
      rw [ha] at h2
      exact Or.inr ⟨rfl, h2⟩
    | some t =>
      rw [ha] at h2
      cases he : elements kids with
      | nil => rw [he] at h2; simp at h2
      | cons a more =>
        rw [he] at h2
        simp only [Bool.and_eq_true] at h2
        exact Or.inl ⟨t, a, more, rfl, rfl, h2.1, h2.2⟩

theorem item_selLi (ctx : List String) (it : NavItem) (li : HNode)
    (h : isItem it li = true) :
    li.matchAll selLi ("ul" :: "nav" :: ctx) = [("ul" :: "nav" :: ctx, li)] := by
  obtain ⟨attr, kids, rfl, hk⟩ := isItem_elim it li h
  have hm : selMatches selLi ("ul" :: "nav" :: ctx) "li" = true := by
    simp [selMatches, selLi, List.isPrefixOf]
  simp only [HNode.matchAll, hm, if_true]
  rw [matchAllList_elements]
  rcases hk with ⟨t, a, more, -, he, ha, hn⟩ | ⟨-, hn⟩
  · rw [he]
    simp only [HNode.matchAllList, anchor_matchAll selLi (Or.inl rfl) t a _ ha,
      nested_matchAll selLi (Or.inl rfl) ctx _ more hn, List.append_nil]
    simp [selMatches, selLi]
  · rw [nested_matchAll selLi (Or.inl rfl) ctx _ _ hn, List.append_nil]

theorem tocItem_item (ctx : List String) (tocs : List Toc) (it : NavItem) (li : HNode)
    (h : isItem it li = true) :
    tocItem tocs ("ul" :: "nav" :: ctx, li) = tocs ++ tocOfItem it := by
  obtain ⟨attr, kids, rfl, hk⟩ := isItem_elim it li h
  unfold tocItem
  simp only [Find]
  rw [matchAllList_elements selA, matchAllList_elements selSubA]
  rcases hk with ⟨t, a, more, hanchor, he, ha, hn⟩ | ⟨hanchor, hn⟩
  · rw [he]
    have hA : selMatches selA ("li" :: "ul" :: "nav" :: ctx) "a" = true := by
      simp [selMatches, selA, List.isPrefixOf]
    have hS : selMatches selSubA ("li" :: "ul" :: "nav" :: ctx) "a" = false := by
      simp [selMatches, selSubA, List.isPrefixOf]
    simp only [HNode.matchAllList, anchor_matchAll selA (Or.inr (Or.inl rfl)) t a _ ha,
      anchor_matchAll selSubA (Or.inr (Or.inr rfl)) t a _ ha,
      nested_matchAll selA (Or.inr rfl) ctx _ more hn, hA, hS, if_true, Bool.false_eq_true,
      if_false, List.append_nil, List.nil_append, attr_anchor _ t a ha, text_anchor _ t a ha,
      nested_tocSub true ctx _ more hn, tocOfItem, hanchor]
  · simp only [nested_matchAll selA (Or.inr rfl) ctx _ _ hn, Attr,
      nested_tocSub false ctx _ _ hn, tocOfItem, hanchor]
    simp

theorem items_selLi (ctx : List String) :
    ∀ (items : List NavItem) (es : List HNode), allPairs isItem items es = true →
      HNode.matchAllList selLi ("ul" :: "nav" :: ctx) es
        = es.map (fun li => ("ul" :: "nav" :: ctx, li))
  | [], [], _ => rfl
  | [], _ :: _, h => by simp [allPairs] at h
  | _ :: _, [], h => by simp [allPairs] at h
  | it :: items, li :: es, h => by
    simp only [allPairs, Bool.and_eq_true] at h
    simp only [HNode.matchAllList, item_selLi ctx it li h.1, items_selLi ctx items es h.2,
      List.singleton_append, List.map_cons]

theorem foldl_tocItem (ctx : List String) :
    ∀ (items : List NavItem) (es : List HNode), allPairs isItem items es = true →
      ∀ tocs : List Toc,
        (es.map (fun li => ("ul" :: "nav" :: ctx, li))).foldl tocItem tocs
          = tocs ++ items.flatMap tocOfItem
  | [], [], _, tocs => by simp
  | [], _ :: _, h, _ => by simp [allPairs] at h
  | _ :: _, [], h, _ => by simp [allPairs] at h
  | it :: items, li :: es, h, tocs => by
    simp only [allPairs, Bool.and_eq_true] at h
    simp only [List.map_cons, List.foldl_cons, tocItem_item ctx tocs it li h.1,
      foldl_tocItem ctx items es h.2, List.flatMap_cons, List.append_assoc]

theorem navBlock_selLi (ctx : List String) (items : List NavItem) (nav : HNode)
    (h : isNavBlock items nav = true) (tocs : List Toc) :
    (nav.matchAll selLi ctx).foldl tocItem tocs = tocs ++ items.flatMap tocOfItem := by
  cases nav with
  | text d => simp [isNavBlock] at h
  | elem tag attr kids =>
    simp only [isNavBlock, Bool.and_eq_true, beq_iff_eq] at h
    obtain ⟨h1, h2⟩ := h
    subst h1
    have hm : selMatches selLi ctx "nav" = false := by simp [selMatches, selLi]
    simp only [HNode.matchAll, hm, Bool.false_eq_true, if_false, List.nil_append]
    rw [matchAllList_elements]
    match he : elements kids, h2 with
    | [.elem ul uattr lis], h2 =>
      simp only [Bool.and_eq_true, beq_iff_eq] at h2
      obtain ⟨h3, h4⟩ := h2
      subst h3
      have hu : selMatches selLi ("nav" :: ctx) "ul" = false := by simp [selMatches, selLi]
      simp only [HNode.matchAllList, HNode.matchAll, hu, Bool.false_eq_true, if_false,
        List.nil_append, List.append_nil]
      rw [matchAllList_elements, items_selLi ctx items _ h4]
      exact foldl_tocItem ctx items _ h4 tocs
    | [], h2 => simp at h2
    | [.text _], h2 => simp at h2
    | _ :: _ :: _, h2 => simp at h2

theorem matchAllList_append (sel anc : List String) :
    ∀ xs ys : List HNode,
      HNode.matchAllList sel anc (xs ++ ys)
        = HNode.matchAllList sel anc xs ++ HNode.matchAllList sel anc ys
  | [], _ => rfl
  | x :: xs, ys => by
    have ih := matchAllList_append sel anc xs ys
    rw [List.cons_append]
    simp only [HNode.matchAllList, List.append_assoc]
    rw [ih]

theorem find_selLi_pageDocument (items : List NavItem) (head pre rest : List HNode)
    (nav : HNode) (hnav : isNavBlock items nav = true)
    (hhead : HNode.hasTagList "nav" head = false)
    (hpre : HNode.hasTagList "nav" pre = false)
    (hrest : HNode.hasTagList "nav" rest = false) :
    (Find selLi ([], pageDocument head (pre ++ nav :: rest))).foldl tocItem []
      = items.flatMap tocOfItem := by
  have hs : "nav" ∈ selLi.tail := by simp [selLi]
  have hh := matchAllList_of_no_nav selLi hs head ["head", "html", ""] (by simp) hhead
  have hp := matchAllList_of_no_nav selLi hs pre ["body", "html", ""] (by simp) hpre
  have hr := matchAllList_of_no_nav selLi hs rest ["body", "html", ""] (by simp) hrest
  have hm : ∀ (anc : List String) (tag : String), tag ≠ "li" → selMatches selLi anc tag = false := by
    intro anc tag h
    simp [selMatches, selLi, Ne.symm h]
  simp only [Find, pageDocument, HNode.matchAllList, HNode.matchAll, matchAllList_append,
    hh, hp, hr, hm _ "html" (by decide), hm _ "head" (by decide), hm _ "body" (by decide),
    Bool.false_eq_true, if_false, List.nil_append, List.append_nil]
  simpa using navBlock_selLi ["body", "html", ""] items nav hnav []

/-- C5: on a parsed page that holds one navigation block, with the top-level items `items`
(each with an optional anchor and its nested anchored items; text nodes may stand anywhere
between the elements of the block, anchors may hold inline markup, nested items may hold
deeper levels, and list items without an anchor may stand between the nested items), and no
other `nav` element, `parseToc` returns a root entry whose children are, item after item in order: for
an anchored item one entry (title = link text, link = href) whose children are the item's
nested items in order; for an unanchored item its nested items themselves, without children
and without an entry for the item. -/
theorem parseToc_tocs (env : Env) (input : String) (items : List NavItem)
    (head pre rest : List HNode) (nav : HNode)
    (hdoc : env.parseHtml input = some (pageDocument head (pre ++ nav :: rest)))
    (hnav : isNavBlock items nav = true)
    (hhead : HNode.hasTagList "nav" head = false)
    (hpre : HNode.hasTagList "nav" pre = false)
    (hrest : HNode.hasTagList "nav" rest = false) :
    ∃ html text, parseToc env input
      = .ok (html, text, Toc.mk "" "" (items.flatMap tocOfItem)) := by
  unfold parseToc
  simp only [hdoc, find_selLi_pageDocument items head pre rest nav hnav hhead hpre hrest]
  exact ⟨_, _, rfl⟩

/-- Witness of C5: the two examples of the specification, on pages as the Markdown renderer
writes them (line breaks between the elements of the block). Two anchored items with one and
zero nested items give two children, the first with one grandchild; an unanchored item with
two nested items gives two top-level entries without children. -/
theorem parseToc_tocs_witness :
    (∃ html text, parseToc (docEnv outlinePage) ""
      = .ok (html, text, Toc.mk "" ""
          [Toc.mk "Install" "#toc_0" [Toc.mk "Linux" "#toc_1" []],
           Toc.mk "Usage" "#toc_3" []]))
    ∧ ∃ html text, parseToc (docEnv orphanPage) ""
        = .ok (html, text, Toc.mk "" ""
            [Toc.mk "Linux" "#toc_0" [], Toc.mk "Mac" "#toc_1" []]) :=
  ⟨parseToc_tocs (docEnv outlinePage) "" outlineItems [] [] outlineRest outlineNav rfl
      (by decide) (by decide) (by decide) (by decide),
    parseToc_tocs (docEnv orphanPage) "" orphanItems [] [] [] orphanNav rfl
      (by decide) (by decide) (by decide) (by decide)⟩

/-! ## `parseToc`: the indexed text -/

/-- C10: whatever document the HTML parser returns, `parseToc` returns, and the text it
returns for the search index is made from the document text (the text of the document once
the `nav` elements are removed) as follows: it contains no two consecutive newlines, its
non-newline characters are those of the document text in order, and a maximal run of `k`
newlines of the document text is reduced to `k mod 2` newlines (the parts before and after
the run being transformed in the same way). -/
theorem parseToc_text_newlines (env : Env) (input : String) (dom : HNode)
    (hdoc : env.parseHtml input = some dom) :
    ∃ html text tocs, parseToc env input = .ok (html, text, tocs)
      ∧ ¬ ['\n', '\n'] <:+: text.data
      ∧ text.data.filter (fun c => c != '\n')
          = (dom.remove "nav").textOf.data.filter (fun c => c != '\n')
      ∧ ∀ (pre post : List Char) (k : Nat),
          (dom.remove "nav").textOf.data = pre ++ List.replicate k '\n' ++ post →
          pre.getLast? ≠ some '\n' → post.head? ≠ some '\n' →
          text.data
            = (indexedText (String.mk pre)).data ++ List.replicate (k % 2) '\n'
              ++ (indexedText (String.mk post)).data := by
  unfold parseToc
  simp only [hdoc]
  exact ⟨_, _, _, rfl, indexedText_newlines _⟩

/-- Witness of C10 on `outlinePage`, whose text without the navigation block is
`\n\nInstall\n\n\nhello\n`. -/
theorem parseToc_text_newlines_witness :
    ∃ html text tocs, parseToc (docEnv outlinePage) "" = .ok (html, text, tocs)
      ∧ ¬ ['\n', '\n'] <:+: text.data
      ∧ text.data.filter (fun c => c != '\n')
          = (outlinePage.remove "nav").textOf.data.filter (fun c => c != '\n')
      ∧ ∀ (pre post : List Char) (k : Nat),
          (outlinePage.remove "nav").textOf.data = pre ++ List.replicate k '\n' ++ post →
          pre.getLast? ≠ some '\n' → post.head? ≠ some '\n' →
          text.data
            = (indexedText (String.mk pre)).data ++ List.replicate (k % 2) '\n'
              ++ (indexedText (String.mk post)).data :=
  parseToc_text_newlines (docEnv outlinePage) "" outlinePage rfl


/-! ## No slice access of `makeNode` is out of range, whatever the collaborators do -/

theorem parseToc_no_index_panic (env : Env) (input : String) :
    parseToc env input ≠ .error .indexOutOfRange := by
  unfold parseToc
  cases env.parseHtml input <;> simp

theorem makeBody_no_index_panic (env : Env) (st : Build) (node : Nat) :
    makeBody env st node ≠ .error .indexOutOfRange
      ∧ ∀ s, makeBody env st node = .ok s → s.nodeList = st.nodeList := by
  unfold makeBody
  simp only []
  split
  · rename_i e he
    refine ⟨?_, fun s hs => by cases hs⟩
    intro hc
    cases hc
    exact parseToc_no_index_panic _ _ he
  · split
    · exact ⟨by simp, fun s hs => by cases hs⟩
    · split_ifs <;>
        first
        | exact ⟨by simp, fun s hs => by cases hs; rfl⟩
        | exact ⟨by simp, fun s hs => by cases hs⟩

theorem enter_no_index_panic (fuel : Nat) (st : Build) (i node : Nat)
    (hi : i < st.nodeList.length) :
    enter fuel ((st.nodeList.length : Int) - 1) st i node ≠ .error .indexOutOfRange
      ∧ ∀ s, enter fuel ((st.nodeList.length : Int) - 1) st i node = .ok s →
          s.nodeList = st.nodeList := by
  unfold enter
  rcases h1 : SetActive fuel st node true with _ | s1
  · simp
  · obtain ⟨hl1, _, _, _⟩ := SetActive_spec fuel st s1 node true h1
    obtain ⟨b, _, hpb⟩ := nodeAt_prev st.nodeList i hi
    obtain ⟨c, _, hpc⟩ := nodeAt_next st.nodeList i hi
    have e : (s1.modify node fun n => { n with Prev := some b }).nodeList = st.nodeList := hl1
    simp only [hl1, hpb, e, hpc]
    refine ⟨by simp, ?_⟩
    intro s hs
    cases hs
    exact hl1

theorem leave_nodeList (fuel : Nat) (st s : Build) (node : Nat)
    (h : leave fuel st node = .ok s) : s.nodeList = st.nodeList := by
  unfold leave at h
  rcases h1 : SetActive fuel st node false with _ | s1
  · rw [h1] at h; cases h
  · rw [h1] at h
    injection h with hs
    subst hs
    exact (SetActive_spec fuel st s1 node false h1).1

theorem leave_no_index_panic (fuel : Nat) (st : Build) (node : Nat) :
    leave fuel st node ≠ .error .indexOutOfRange := by
  unfold leave
  cases SetActive fuel st node false <;> simp

theorem makeNodeLoop_no_index_panic (env : Env) (fuel : Nat) (L : List Nat) :
    ∀ (nodes : List Nat) (i : Nat) (st : Build), st.nodeList = L →
      i + nodes.length ≤ L.length →
      makeNodeLoop env fuel ((L.length : Int) - 1) i nodes st ≠ .error .indexOutOfRange
  | [], _, _, _, _ => by simp [makeNodeLoop]
  | node :: rest, i, st, hL, hlen => by
    simp only [List.length_cons] at hlen
    obtain ⟨h1, h2⟩ := enter_no_index_panic fuel st i node (by rw [hL]; omega)
    rw [hL] at h1 h2
    simp only [makeNodeLoop]
    cases he : enter fuel ((L.length : Int) - 1) st i node with
    | error e =>
      intro hc
      simp only [Except.error.injEq] at hc
      rw [he, hc] at h1
      exact h1 rfl
    | ok s1 =>
      simp only []
      obtain ⟨h3, h4⟩ := makeBody_no_index_panic env s1 node
      cases hb : makeBody env s1 node with
      | error e =>
        intro hc
        simp only [Except.error.injEq] at hc
        rw [hb, hc] at h3
        exact h3 rfl
      | ok s2 =>
        simp only []
        cases hv : leave fuel s2 node with
        | error e =>
          intro hc
          simp only [Except.error.injEq] at hc
          have := leave_no_index_panic fuel s2 node
          rw [hv, hc] at this
          exact this rfl
        | ok s3 =>
          simp only []
          apply makeNodeLoop_no_index_panic env fuel L rest (i + 1) s3
          · rw [leave_nodeList fuel s2 s3 node hv, h4 s2 hb, h2 s1 he]
          · omega

theorem makeNode_no_index_panic (env : Env) (fuel : Nat) (st : Build) :
    makeNode env fuel st ≠ .error .indexOutOfRange := by
  unfold makeNode
  exact makeNodeLoop_no_index_panic env fuel st.nodeList st.nodeList 0 st rfl (by omega)

end Modoc
